import Mathlib

/-!
Verification development for the csp-evaluator core: a shallow embedding of
the CSP string parser, the policy model, the effective-policy resolver, the
finding model and several security checks, together with theorems about the
behaviour of those functions.

Strings are modelled as lists of characters. The helper constant S injects
Lean string literals into that representation.
-/

namespace CspEval

/-- Character strings, modelled as lists of unicode characters. -/
abbrev Str := List Char

/-- Injection of Lean string literals into the Str representation. -/
def S (s : String) : Str := s.data

/-- The single-quote character (U+0027), built numerically. -/
def SQ : Char := Char.ofNat 39

/-- Wrap a string in single quotes, as CSP keyword literals are written. -/
def Q (s : String) : Str := SQ :: s.data ++ [SQ]

/--
Whitespace per the JavaScript regular-expression class backslash-s and
String.prototype.trim: ASCII whitespace, NBSP, the Unicode space separators,
the line separators and the BOM.
-/
def jsSpace (c : Char) : Bool :=
  c.toNat ∈ [9, 10, 11, 12, 13, 32, 160, 0x1680, 0x2000, 0x2001, 0x2002,
    0x2003, 0x2004, 0x2005, 0x2006, 0x2007, 0x2008, 0x2009, 0x200a,
    0x2028, 0x2029, 0x202f, 0x205f, 0x3000, 0xfeff]

/-- Latin-1 test, per the parser regular expression admitting x00 to xFF. -/
def latin1 (c : Char) : Bool := c.toNat ≤ 255

/--
Lower-casing of a single character as JavaScript toLowerCase acts on the
Latin-1 range: ASCII capitals and the Latin-1 capitals (except the
multiplication sign U+00D7) are shifted by 32, everything else is kept.
-/
def jsLowerChar (c : Char) : Char :=
  if (65 ≤ c.toNat ∧ c.toNat ≤ 90) ∨
      (192 ≤ c.toNat ∧ c.toNat ≤ 222 ∧ c.toNat ≠ 215) then
    Char.ofNat (c.toNat + 32)
  else c

/-- Lower-casing of a whole string. -/
def jsLower (l : Str) : Str := l.map jsLowerChar

/-- Left trim: drop leading whitespace. -/
def jsTrimL (l : Str) : Str := l.dropWhile jsSpace

/-- Right trim: drop trailing whitespace. -/
def jsTrimR (l : Str) : Str := ((l.reverse).dropWhile jsSpace).reverse

/-- Both-sided trim, as JavaScript String.prototype.trim. -/
def jsTrim (l : Str) : Str := jsTrimR (jsTrimL l)

/--
Split a string on the semicolon character, as JavaScript split with a
one-character separator: every occurrence separates, empty pieces are kept.
-/
def splitSemi : Str → List Str
  | [] => [[]]
  | c :: cs =>
    if c = ';' then [] :: splitSemi cs
    else
      match splitSemi cs with
      | [] => [[c]]
      | p :: ps => (c :: p) :: ps

/--
Split a string on the two-character separator comma-space, as JavaScript
split scanning left to right over non-overlapping occurrences.
-/
def splitCS : Str → List Str
  | [] => [[]]
  | [c] => [[c]]
  | a :: b :: r =>
    if a = ',' ∧ b = ' ' then [] :: splitCS r
    else
      match splitCS (b :: r) with
      | [] => [[a]]
      | p :: ps => (a :: p) :: ps

/--
The list of maximal whitespace-free runs of a string, as the JavaScript
match against one-or-more non-whitespace characters returns them (the null
result of match is represented by the empty list).
-/
def jsWords : Str → List Str
  | [] => []
  | [c] => if jsSpace c then [] else [[c]]
  | c :: d :: rest =>
    if jsSpace c then jsWords (d :: rest)
    else if jsSpace d then [c] :: jsWords rest
    else
      match jsWords (d :: rest) with
      | [] => [[c]]
      | w :: ws => (c :: w) :: ws

/-! ## Policy vocabulary -/

/--
The CSP source keyword literals, from the Keyword enumeration of the csp
module (the class-based variant with eight members).
-/
def KEYWORDS : List Str :=
  [Q (r"self"), Q (r"none"), Q (r"unsafe-inline"), Q (r"unsafe-eval"),
   Q (r"strict-dynamic"), Q (r"unsafe-hashed-attributes"),
   Q (r"unsafe-hashes"), Q (r"report-sample")]

/-- isKeyword: membership in the keyword enumeration values. -/
def isKeyword (v : Str) : Bool := v ∈ KEYWORDS

/-- ASCII alphabetic test, as the regex class a-zA-Z. -/
def asciiAlpha (c : Char) : Bool :=
  (65 ≤ c.toNat ∧ c.toNat ≤ 90) ∨ (97 ≤ c.toNat ∧ c.toNat ≤ 122)

/-- ASCII digit test. -/
def asciiDigit (c : Char) : Bool := 48 ≤ c.toNat ∧ c.toNat ≤ 57

/-- The regex class of scheme-body characters: plus, letters, digits, dot, dash. -/
def schemeChar (c : Char) : Bool :=
  asciiAlpha c ∨ asciiDigit c ∨ c = '+' ∨ c = '.' ∨ c = '-'

/--
isUrlScheme: the anchored regex requiring one letter, a run of scheme-body
characters, and a final colon.
-/
def isUrlScheme : Str → Bool
  | [] => false
  | c :: rest =>
    asciiAlpha c ∧ rest ≠ [] ∧ rest.dropLast.all schemeChar ∧
      rest.getLast? = some ':'

/--
A character matched by the regex dot metacharacter: anything except the
line terminators.
-/
def regexDot (c : Char) : Bool :=
  c.toNat ≠ 10 ∧ c.toNat ≠ 13 ∧ c.toNat ≠ 0x2028 ∧ c.toNat ≠ 0x2029

/--
isNonce without the strict flag: the anchored regex requiring the literal
quote nonce dash prefix, at least one payload character (each matched by the
dot metacharacter), and a closing quote.
-/
def isNonce (v : Str) : Bool :=
  (SQ :: S (r"nonce-")).isPrefixOf v ∧ 9 ≤ v.length ∧
    v.getLast? = some SQ ∧ ((v.drop 7).dropLast.all regexDot)

/--
isHash without the strict flag: the anchored regex requiring a quoted
sha256, sha384 or sha512 prefix, at least one payload character, and a
closing quote.
-/
def isHash (v : Str) : Bool :=
  ((SQ :: S (r"sha256-")).isPrefixOf v ∨ (SQ :: S (r"sha384-")).isPrefixOf v ∨
      (SQ :: S (r"sha512-")).isPrefixOf v) ∧
    10 ≤ v.length ∧ v.getLast? = some SQ ∧ ((v.drop 8).dropLast.all regexDot)

/--
The fetch directives, per the FETCH_DIRECTIVES constant of the csp module:
the directives that fall back to default-src.
-/
def FETCH_DIRECTIVES : List Str :=
  [S (r"child-src"), S (r"connect-src"), S (r"default-src"), S (r"font-src"),
   S (r"frame-src"), S (r"img-src"), S (r"manifest-src"), S (r"media-src"),
   S (r"object-src"), S (r"script-src"), S (r"script-src-attr"),
   S (r"script-src-elem"), S (r"style-src"), S (r"style-src-attr"),
   S (r"style-src-elem"), S (r"worker-src")]

/-! ## Policy model -/

/--
A parsed policy: the ordered mapping from directive name to value list, as
the record object keyed by directive names holds it (string keys preserve
insertion order).
-/
abbrev Policy := List (Str × List Str)

/-- Key membership in a policy record, as the in operator on a string map. -/
def containsKey (p : Policy) (k : Str) : Bool := p.any (fun e => e.1 = k)

/-- Value-list lookup defaulting to the empty list, as indexing or-else-empty. -/
def lookupD (p : Policy) (k : Str) : List Str :=
  match p.find? (fun e => e.1 = k) with
  | some e => e.2
  | none => []

/--
Remove the first occurrence of a value from the value list stored under a
key, as the array-remove helper mutates the looked-up array in place.
-/
def removeVal (p : Policy) (k v : Str) : Policy :=
  p.map (fun e => if e.1 = k then (e.1, e.2.erase v) else e)

/-- Delete a key from a policy record entirely. -/
def removeKey (p : Policy) (k : Str) : Policy :=
  p.filter (fun e => ¬ (e.1 = k))

/-! ## Parser -/

/--
normalizeDirectiveValue: trim the value; if the lower-cased form is a
keyword, or the value is a URL scheme, return the lower-cased form,
otherwise the trimmed value unchanged.
-/
def normalizeDirectiveValue (v : Str) : Str :=
  if isKeyword (jsLower (jsTrim v)) ∨ isUrlScheme (jsTrim v) then
    jsLower (jsTrim v)
  else jsTrim v

/--
The value loop of the parser: each word after the first is normalized and
appended unless already present. The JavaScript loop stops at the first
falsy (empty) word, hence the takeWhile.
-/
def buildValues (ws : List Str) : List Str :=
  (ws.takeWhile (fun w => w ≠ [])).foldl
    (fun acc w =>
      if normalizeDirectiveValue w ∈ acc then acc
      else acc ++ [normalizeDirectiveValue w])
    []

/--
The token step shared by parseCsp: trims the token, discards empty or
non-Latin-1 tokens, extracts the words, lower-cases the first word as the
directive name, discards the token when the name is already present, and
otherwise appends the directive with its normalized, de-duplicated values.
-/
def parseToken (acc : Policy) (tok : Str) : Policy :=
  if jsTrim tok = [] then acc
  else if ¬ (jsTrim tok).all latin1 then acc
  else
    match jsWords (jsTrim tok) with
    | [] => acc
    | w :: ws =>
      if containsKey acc (jsLower w) then acc
      else acc ++ [(jsLower w, buildValues ws)]

/--
parseCsp of the TypeScript parser: split a single serialized policy on
semicolons and fold the token step over the tokens.
-/
def parseCsp (s : Str) : Policy := (splitSemi s).foldl parseToken []

/--
parse of the TypeScript parser: split the header value on the legacy
comma-space multi-policy delimiter and parse each piece as one policy.
-/
def parseCollection (s : Str) : List Policy := (splitCS s).map parseCsp

/--
The token step of the closure-library parser: identical to the TypeScript
step except that neither the empty-token check nor the Latin-1 check is
performed (the word match returning null covers empty tokens).
-/
def parseTokenJs (acc : Policy) (tok : Str) : Policy :=
  match jsWords (jsTrim tok) with
  | [] => acc
  | w :: ws =>
    if containsKey acc (jsLower w) then acc
    else acc ++ [(jsLower w, buildValues ws)]

/--
parse of the closure-library parser: split one policy string on semicolons
and fold the token step; a single policy object results.
-/
def parseJs (s : Str) : Policy := (splitSemi s).foldl parseTokenJs []

/-! ## Directive and keyword constants -/

/-- The default-src directive name. -/
def DEFAULT_SRC : Str := S (r"default-src")

/-- The script-src directive name. -/
def SCRIPT_SRC : Str := S (r"script-src")

/-- The object-src directive name. -/
def OBJECT_SRC : Str := S (r"object-src")

/-- The base-uri directive name. -/
def BASE_URI : Str := S (r"base-uri")

/-- The report-to directive name. -/
def REPORT_TO : Str := S (r"report-to")

/-- The worker-src directive name. -/
def WORKER_SRC : Str := S (r"worker-src")

/-- The manifest-src directive name. -/
def MANIFEST_SRC : Str := S (r"manifest-src")

/-- The quoted self keyword. -/
def KW_SELF : Str := Q (r"self")

/-- The quoted none keyword. -/
def KW_NONE : Str := Q (r"none")

/-- The quoted unsafe-inline keyword. -/
def KW_UNSAFE_INLINE : Str := Q (r"unsafe-inline")

/-- The quoted unsafe-eval keyword. -/
def KW_UNSAFE_EVAL : Str := Q (r"unsafe-eval")

/-- The quoted strict-dynamic keyword. -/
def KW_STRICT_DYNAMIC : Str := Q (r"strict-dynamic")

/-! ## Finding model -/

/--
Finding severities, per the Severity enumeration: HIGH 10, SYNTAX 20,
MEDIUM 30, HIGH_MAYBE 40, STRICT_CSP 45, MEDIUM_MAYBE 50, INFO 60,
NONE 100.
-/
inductive Severity where
  | high
  | syn
  | medium
  | highMaybe
  | strictCsp
  | mediumMaybe
  | info
  | noneSev
deriving DecidableEq, Repr

/-- The numeric value a severity carries in the enumeration. -/
def Severity.val : Severity → Nat
  | .high => 10
  | .syn => 20
  | .medium => 30
  | .highMaybe => 40
  | .strictCsp => 45
  | .mediumMaybe => 50
  | .info => 60
  | .noneSev => 100

/-- Finding types, per the Type enumeration of the Finding module. -/
inductive FType where
  | missingSemicolon
  | unknownDirective
  | invalidKeyword
  | missingDirectives
  | scriptUnsafeInline
  | scriptUnsafeEval
  | plainUrlSchemes
  | plainWildcard
  | scriptWhitelistBypass
  | objectWhitelistBypass
  | nonceLength
  | ipSource
  | deprecatedDirective
  | srcHttp
  | strictDynamic
  | strictDynamicNotStandalone
  | nonceHash
  | unsafeInlineFallback
  | whitelistFallback
  | ignored
deriving DecidableEq, Repr

/--
A Finding: type, description, severity, the directive concerned, and the
optional directive value concerned.
-/
structure Finding where
  type : FType
  description : Str
  severity : Severity
  directive : Str
  value : Option Str := none
deriving DecidableEq, Repr

/-- The binary step of the severity reduction: prev when below cur, else cur. -/
def jsMin (prev cur : Nat) : Nat := if prev < cur then prev else cur

/--
Finding.getHighestSeverity: NONE for the empty list, otherwise the
left fold of the binary minimum (written as the conditional the source
uses) over the severities, starting from NONE.
-/
def getHighestSeverity (fs : List Finding) : Nat :=
  if fs.isEmpty then Severity.noneSev.val
  else (fs.map (fun f => f.severity.val)).foldl jsMin Severity.noneSev.val

/-! ## Effective policy resolver -/

/--
getEffectiveDirective of the Csp class: default-src when the requested
directive is absent and is a fetch directive, the directive itself
otherwise.
-/
def getEffectiveDirective (p : Policy) (d : Str) : Str :=
  if ¬ containsKey p d ∧ d ∈ FETCH_DIRECTIVES then DEFAULT_SRC else d

/--
policyHasScriptNonces: some value of the effective script-src directive is
a nonce.
-/
def policyHasScriptNonces (p : Policy) : Bool :=
  (lookupD p (getEffectiveDirective p SCRIPT_SRC)).any isNonce

/--
policyHasScriptHashes: some value of the effective script-src directive is
a hash.
-/
def policyHasScriptHashes (p : Policy) : Bool :=
  (lookupD p (getEffectiveDirective p SCRIPT_SRC)).any isHash

/--
policyHasStrictDynamic: the effective script-src directive contains the
strict-dynamic keyword.
-/
def policyHasStrictDynamic (p : Policy) : Bool :=
  KW_STRICT_DYNAMIC ∈ lookupD p (getEffectiveDirective p SCRIPT_SRC)

/-- The test for values removed by pre-CSP2 agents: nonce or sha prefix. -/
def nonceOrShaPrefix (v : Str) : Bool :=
  (SQ :: S (r"nonce-")).isPrefixOf v ∨ (SQ :: S (r"sha")).isPrefixOf v

/-- Description of the unsafe-inline-ignored finding. -/
def DESC_UI_IGNORED : Str :=
  S (r"unsafe-inline is ignored if a nonce or a hash is present. (CSP2 and above)")

/-- Description of the ignored-because-of-strict-dynamic finding. -/
def DESC_SD_IGNORED : Str :=
  S (r"Because of strict-dynamic this entry is ignored in CSP3 and above")

/--
Csp.getEffectiveCsp: starting from a clone of the parsed policy, apply the
nonce-hash rule, then the strict-dynamic rule, then drop the CSP3-only
directives below version 3; membership tests and iteration use the original
value list throughout, removals and findings accumulate sequentially.
The returned pair carries the effective policy and the findings the source
pushes onto the optional findings array.
-/
def getEffectiveCsp (parsedCsp : Policy) (cspVersion : Nat) :
    Policy × List Finding :=
  let effectiveCsp := parsedCsp
  let directive := getEffectiveDirective parsedCsp SCRIPT_SRC
  let values := lookupD parsedCsp directive
  let st1 : Policy × List Finding :=
    if containsKey effectiveCsp directive ∧
        (policyHasScriptNonces effectiveCsp ∨ policyHasScriptHashes effectiveCsp) then
      if 2 ≤ cspVersion then
        if KW_UNSAFE_INLINE ∈ values then
          (removeVal effectiveCsp directive KW_UNSAFE_INLINE,
           [{ type := .ignored, description := DESC_UI_IGNORED,
              severity := .noneSev, directive := directive,
              value := some KW_UNSAFE_INLINE }])
        else (effectiveCsp, [])
      else
        (values.foldl
          (fun acc v => if nonceOrShaPrefix v then removeVal acc directive v else acc)
          effectiveCsp, [])
    else (effectiveCsp, [])
  let st2 : Policy × List Finding :=
    if containsKey st1.1 directive ∧ policyHasStrictDynamic parsedCsp then
      if 3 ≤ cspVersion then
        values.foldl
          (fun st v =>
            if ¬ (v.head? = some SQ) ∨ v = KW_SELF ∨ v = KW_UNSAFE_INLINE then
              (removeVal st.1 directive v,
               st.2 ++ [{ type := .ignored, description := DESC_SD_IGNORED,
                          severity := .noneSev, directive := directive,
                          value := some v }])
            else st)
          st1
      else (removeVal st1.1 directive KW_STRICT_DYNAMIC, st1.2)
    else st1
  let st3 : Policy :=
    if cspVersion < 3 then
      removeKey (removeKey (removeKey st2.1 REPORT_TO) WORKER_SRC) MANIFEST_SRC
    else st2.1
  (st3, st2.2)

/-! ## Serialization -/

/--
One directive as Csp.convertToString emits it: the name, a space-prefixed
copy of each value, and a closing semicolon-space. The loop of the source
stops at the first falsy (empty) value, hence the takeWhile.
-/
def serializeDirective (e : Str × List Str) : Str :=
  e.1 ++ ((e.2.takeWhile (fun v => v ≠ [])).map (fun v => ' ' :: v)).flatten
    ++ S (r"; ")

/-- Csp.convertToString: every directive serialized in insertion order. -/
def convertToString (p : Policy) : Str := (p.map serializeDirective).flatten

/-- Join a list of strings with the comma-space separator. -/
def joinCS : List Str → Str
  | [] => []
  | [p] => p
  | p :: ps => p ++ S (r", ") ++ joinCS ps

/--
Serialization of a whole policy collection as the specification describes
it: each policy in string form, the policies joined by comma-space.
-/
def serializeCollection (c : List Policy) : Str :=
  joinCS (c.map convertToString)

/-! ## Missing-directives check -/

/-- Description of the missing object-src finding of the default-src branch. -/
def DESC_OS_MAYBE : Str :=
  S (r"Can you restrict object-src to ") ++ KW_NONE ++ S (r"?")

/-- Description of the missing object-src finding of the directive loop. -/
def DESC_OS_LOOP : Str :=
  S (r"Missing object-src allows the injection of plugins which can execute JavaScript. Can you set it to ") ++
    KW_NONE ++ S (r"?")

/-- Description of the missing base-uri finding. -/
def DESC_BU : Str :=
  S (r"Missing base-uri allows the injection of base tags. They can be used to set the base URL for all relative (script) URLs to an attacker controlled domain. Can you set it to ") ++
    KW_NONE ++ S (r" or ") ++ KW_SELF ++ S (r"?")

/--
The directive loop of checkMissingDirectives: for each absent directive a
HIGH finding with the description chosen per directive; a missing base-uri
is skipped unless the policy has script nonces, or script hashes together
with strict-dynamic.
-/
def missingLoop (p : Policy) (dirs : List Str) (violations : List Finding) :
    List Finding :=
  dirs.foldl
    (fun acc directive =>
      if containsKey p directive then acc
      else if directive = OBJECT_SRC then
        acc ++ [{ type := .missingDirectives, description := DESC_OS_LOOP,
                  severity := .high, directive := directive }]
      else if directive = BASE_URI then
        if ¬ policyHasScriptNonces p ∧
            ¬ (policyHasScriptHashes p ∧ policyHasStrictDynamic p) then acc
        else
          acc ++ [{ type := .missingDirectives, description := DESC_BU,
                    severity := .high, directive := directive }]
      else
        acc ++ [{ type := .missingDirectives,
                  description := directive ++ S (r" directive is missing."),
                  severity := .high, directive := directive }])
    violations

/--
securityChecks.checkMissingDirectives: when default-src is present, report
a missing object-src (HIGH_MAYBE) unless none is among the default-src
values, then stop if base-uri is present, otherwise only base-uri remains
to be checked by the loop; when default-src is absent, the loop checks
script-src, object-src and base-uri.
-/
def checkMissingDirectives (p : Policy) : List Finding :=
  if containsKey p DEFAULT_SRC then
    let violations :=
      if ¬ containsKey p OBJECT_SRC ∧ ¬ (KW_NONE ∈ lookupD p DEFAULT_SRC) then
        [{ type := .missingDirectives, description := DESC_OS_MAYBE,
           severity := .highMaybe, directive := OBJECT_SRC : Finding }]
      else []
    if containsKey p BASE_URI then violations
    else missingLoop p [BASE_URI] violations
  else missingLoop p [SCRIPT_SRC, OBJECT_SRC, BASE_URI] []

/--
The branching of the missing-directives check as the specification words
it, written directly as nested conditionals; compared against the source
translation by the corresponding theorem.
-/
def checkMissingDirectivesSpec (p : Policy) : List Finding :=
  if containsKey p DEFAULT_SRC then
    (if ¬ containsKey p OBJECT_SRC ∧ ¬ (KW_NONE ∈ lookupD p DEFAULT_SRC) then
      [{ type := .missingDirectives, description := DESC_OS_MAYBE,
         severity := .highMaybe, directive := OBJECT_SRC : Finding }]
     else []) ++
    (if containsKey p BASE_URI then []
     else if policyHasScriptNonces p ∨
         (policyHasScriptHashes p ∧ policyHasStrictDynamic p) then
       [{ type := .missingDirectives, description := DESC_BU,
          severity := .high, directive := BASE_URI }]
     else [])
  else
    (if containsKey p SCRIPT_SRC then []
     else
       [{ type := .missingDirectives,
          description := SCRIPT_SRC ++ S (r" directive is missing."),
          severity := .high, directive := SCRIPT_SRC : Finding }]) ++
    (if containsKey p OBJECT_SRC then []
     else
       [{ type := .missingDirectives, description := DESC_OS_LOOP,
          severity := .high, directive := OBJECT_SRC }]) ++
    (if containsKey p BASE_URI then []
     else if policyHasScriptNonces p ∨
         (policyHasScriptHashes p ∧ policyHasStrictDynamic p) then
       [{ type := .missingDirectives, description := DESC_BU,
          severity := .high, directive := BASE_URI }]
     else [])

/-! ## Wildcard URL matcher -/

/--
A URL as the matcher consumes it: the domain (host without port), the path
component, and whether the URL carries a nonempty path. Models the parsed
URI objects the source passes around.
-/
structure Url where
  domain : Str
  path : Str
  hasPath : Bool
deriving DecidableEq, Repr

/-- Word characters of the regex class backslash-w. -/
def wordChar (c : Char) : Bool := asciiAlpha c ∨ asciiDigit c ∨ c = '_'

/-- Characters of the regex class word, plus, dot, dash. -/
def swChar (c : Char) : Bool := wordChar c ∨ c = '+' ∨ c = '.' ∨ c = '-'

/--
utils.getSchemeFreeUrl: strip one leading scheme-colon-slash-slash prefix
(word character, a run of the scheme class, then colon slash slash), then
strip one leading protocol-agnostic slash slash.
-/
def getSchemeFreeUrl (l : Str) : Str :=
  let l1 :=
    match l with
    | c :: rest =>
      if wordChar c then
        match rest.dropWhile swChar with
        | ':' :: '/' :: '/' :: t => t
        | _ => l
      else l
    | [] => []
  match l1 with
  | '/' :: '/' :: t => t
  | _ => l1

/--
A model of URI parsing for the protocol-relative strings the checks build:
after an optional leading slash-slash, the authority runs to the first
slash, question mark or hash; the domain is the authority up to a port
colon; the path is the slash-led component before any query or fragment.
-/
def mkUri (l : Str) : Url :=
  let rest :=
    match l with
    | '/' :: '/' :: t => t
    | t => t
  let auth := rest.takeWhile (fun c => c ≠ '/' ∧ c ≠ '?' ∧ c ≠ '#')
  let tail := rest.dropWhile (fun c => c ≠ '/' ∧ c ≠ '?' ∧ c ≠ '#')
  let domain := auth.takeWhile (fun c => c ≠ ':')
  let path :=
    if tail.head? = some '/' then tail.takeWhile (fun c => c ≠ '?' ∧ c ≠ '#')
    else []
  { domain := domain, path := path, hasPath := ¬ path.isEmpty }

/--
utils.matchWildcardUrls: lower-case the pattern host, remember whether it
starts with star-dot, strip a leading star; a candidate is skipped unless
its domain ends with the wildcard-free host, unless the host had no
wildcard and differs from the domain, and unless the pattern path (when
present) prefix-matches (directory form) or equals (exact form) the
candidate path; the first surviving candidate is returned.
-/
def matchWildcardUrls (cspUrl : Url) : List Url → Option Url
  | [] => none
  | url :: rest =>
    let host := jsLower cspUrl.domain
    let hostHasWildcard := (S (r"*.")).isPrefixOf host
    let wildcardFreeHost := if host.head? = some '*' then host.drop 1 else host
    let path := cspUrl.path
    let hasPath := cspUrl.hasPath
    if ¬ wildcardFreeHost.isSuffixOf url.domain then
      matchWildcardUrls cspUrl rest
    else if ¬ hostHasWildcard ∧ host ≠ url.domain then
      matchWildcardUrls cspUrl rest
    else if hasPath ∧
        (if path.getLast? = some '/' then ¬ path.isPrefixOf url.path
         else url.path ≠ path) then
      matchWildcardUrls cspUrl rest
    else some url

/--
The candidate-matching predicate as the specification words it: the domain
ends with the wildcard-free lowercased host, the pattern host began with
star-dot or the two domains are exactly equal, and a pattern path (when
present) is a prefix of the candidate path when it ends in slash and equal
to it otherwise. Compared against the source translation by the
corresponding theorem.
-/
def urlMatchesSpec (cspUrl url : Url) : Bool :=
  let host := jsLower cspUrl.domain
  let wildcardFreeHost := if host.head? = some '*' then host.drop 1 else host
  wildcardFreeHost.isSuffixOf url.domain ∧
    ((S (r"*.")).isPrefixOf host ∨ host = url.domain) ∧
    (cspUrl.hasPath →
      (if cspUrl.path.getLast? = some '/' then cspUrl.path.isPrefixOf url.path
       else url.path = cspUrl.path))

/-! ## Script whitelist bypass check -/

/-- Description of the self finding of the whitelist-bypass check. -/
def DESC_SELF_BYPASS : Str :=
  KW_SELF ++
    S (r" can be problematic if you host JSONP, Angular or user uploaded files.")

/-- Description of the no-bypass-found finding. -/
def DESC_NO_BYPASS : Str :=
  S (r"No bypass found; make sure that this URL doesn") ++ [SQ] ++
    S (r"t serve JSONP replies or Angular libraries.")

/--
The body of the whitelist-bypass loop for one non-keyword value: match the
value URL against the Angular and JSONP datasets, suppress an eval-needing
JSONP bypass when unsafe-eval is absent, and emit the HIGH bypass finding
or the MEDIUM_MAYBE no-bypass finding.
-/
def bypassFindingFor (angularUrls jsonpUrls : List Url) (needsEval : List Str)
    (scriptSrcValues : List Str) (effectiveDir : Str) (value : Str) : Finding :=
  let url := mkUri ('/' :: '/' :: getSchemeFreeUrl value)
  let angularBypass := matchWildcardUrls url angularUrls
  let jsonpBypass0 := matchWildcardUrls url jsonpUrls
  let jsonpBypass :=
    match jsonpBypass0 with
    | some jb =>
      if jb.domain ∈ needsEval ∧ ¬ (KW_UNSAFE_EVAL ∈ scriptSrcValues) then none
      else some jb
    | none => none
  if jsonpBypass.isSome ∨ angularBypass.isSome then
    let bypassDomain0 : Str := match jsonpBypass with
      | some jb => jb.domain
      | none => []
    let bypassTxt0 : Str := match jsonpBypass with
      | some _ => S (r" JSONP endpoints")
      | none => []
    let bypassDomain : Str := match angularBypass with
      | some ab => ab.domain
      | none => bypassDomain0
    let bypassTxt : Str := match angularBypass with
      | some _ =>
        bypassTxt0 ++ (if bypassTxt0 = [] then [] else S (r" and")) ++
          S (r" Angular libraries")
      | none => bypassTxt0
    { type := .scriptWhitelistBypass,
      description := bypassDomain ++ S (r" is known to host") ++ bypassTxt ++
        S (r" which allow to bypass this CSP."),
      severity := .high, directive := effectiveDir, value := some value }
  else
    { type := .scriptWhitelistBypass, description := DESC_NO_BYPASS,
      severity := .mediumMaybe, directive := effectiveDir, value := some value }

/--
securityChecks.checkScriptWhitelistBypass, with the external bypass
datasets passed explicitly: an effective script-src containing none
returns no findings at once; otherwise every value that is not a quoted
token, not a bare scheme and contains a dot is matched against the
datasets.
-/
def checkScriptWhitelistBypass (angularUrls jsonpUrls : List Url)
    (needsEval : List Str) (parsedCsp : Policy) : List Finding :=
  let effectiveScriptSrcDirective := getEffectiveDirective parsedCsp SCRIPT_SRC
  let scriptSrcValues := lookupD parsedCsp effectiveScriptSrcDirective
  if KW_NONE ∈ scriptSrcValues then []
  else
    scriptSrcValues.foldl
      (fun acc value =>
        if value = KW_SELF then
          acc ++ [{ type := .scriptWhitelistBypass,
                    description := DESC_SELF_BYPASS,
                    severity := .mediumMaybe,
                    directive := effectiveScriptSrcDirective,
                    value := some value }]
        else if value.head? = some SQ then acc
        else if isUrlScheme value ∨ ¬ ('.' ∈ value) then acc
        else
          acc ++ [bypassFindingFor angularUrls jsonpUrls needsEval
                    scriptSrcValues effectiveScriptSrcDirective value])
      []

/-! ## Auxiliary forms of the parser used by the theorems -/

/--
The name-value pair a single token contributes before the duplicate-name
filter: the lower-cased first word and the normalized, de-duplicated value
words; tokens that are empty, not Latin-1 or without words contribute
nothing.
-/
def tokenPair (tok : Str) : Option (Str × List Str) :=
  if jsTrim tok = [] then none
  else if ¬ (jsTrim tok).all latin1 then none
  else
    match jsWords (jsTrim tok) with
    | [] => none
    | w :: ws => some (jsLower w, buildValues ws)

/-- The pairs contributed by every token of a serialized policy, in order. -/
def tokenPairs (s : Str) : List (Str × List Str) :=
  (splitSemi s).filterMap tokenPair

/-- Keep the first entry for each key, dropping later entries with seen keys. -/
def dedupKeys (l : List (Str × List Str)) : Policy :=
  l.foldl (fun acc e => if containsKey acc e.1 then acc else acc ++ [e]) []

/--
Occurrence test for the comma-space separator inside a string: true when
some character equal to a comma is immediately followed by a space.
-/
def hasCS : Str → Bool
  | x :: y :: r => (x = ',' ∧ y = ' ') ∨ hasCS (y :: r)
  | _ => false

/--
A string acceptable as stored directive name or value: nonempty, free of
whitespace and semicolons, and within Latin-1.
-/
def goodStr (l : Str) : Prop :=
  l ≠ [] ∧ ∀ c ∈ l, jsSpace c = false ∧ c ≠ ';' ∧ latin1 c = true

/--
The duplicate-free-input hypothesis of the round-trip property: within
each policy of the input, the token names are pairwise distinct.
-/
def noDupNames (s : Str) : Prop :=
  ∀ piece ∈ splitCS s, ((tokenPairs piece).map Prod.fst).Nodup

/--
The amended hypothesis of the round-trip property: no stored directive
name or value ends with a comma.
-/
def noTrailingComma (c : List Policy) : Prop :=
  ∀ p ∈ c, ∀ e ∈ p, e.1.getLast? ≠ some ',' ∧ ∀ v ∈ e.2, v.getLast? ≠ some ','

/--
The invariants every parsed policy satisfies: pairwise-distinct,
lower-case-normal, well-formed directive names, and duplicate-free,
well-formed, normalization-fixed value lists.
-/
def PolicyInv (p : Policy) : Prop :=
  (p.map Prod.fst).Nodup ∧
    ∀ e ∈ p, goodStr e.1 ∧ jsLower e.1 = e.1 ∧ e.2.Nodup ∧
      ∀ v ∈ e.2, goodStr v ∧ normalizeDirectiveValue v = v

/-! ## Concrete inputs used by the closed theorems -/

/--
The policy string of the version-monotonicity example: default-src with
unsafe-inline, strict-dynamic, a nonce, a hash and self, followed by
report-to, worker-src and manifest-src.
-/
def C1_INPUT : Str :=
  S (r"default-src ") ++ KW_UNSAFE_INLINE ++ [' '] ++ KW_STRICT_DYNAMIC ++
    [' '] ++ Q (r"nonce-123") ++ [' '] ++ Q (r"sha256-foobar") ++ [' '] ++
    KW_SELF ++ S (r"; report-to foo.bar; worker-src *; manifest-src *")

/--
A policy string breaking the round-trip property: a value ending in a
comma followed by a tab-separated further value, so that re-serialization
produces the comma-space sequence the re-parse splits on.
-/
def RT_COUNTER : Str := S (r"script-src foo,") ++ ['\t'] ++ S (r"bar")

/-- A round-trip example input with two policies and several directives. -/
def RT_EXAMPLE : Str :=
  S (r"default-src ") ++ KW_SELF ++
    S (r"; script-src foo.bar HTTPS: , img-src *; report-uri /x")

/-- A sample finding used by witnesses. -/
def FW : Finding :=
  { type := .ignored, description := [], severity := .medium,
    directive := S (r"script-src") }

/-! ## Heap model of the enforced-policy resolver -/

/--
The trusted-types directive name, removed from pre-CSP3 effective
policies by the enforced resolver.
-/
def TRUSTED_TYPES : Str := S (r"trusted-types")

/-- The require-trusted-types-for directive name. -/
def REQUIRE_TRUSTED_TYPES_FOR : Str := S (r"require-trusted-types-for")

/--
A heap for the enforced-policy computation: policy objects hold directive
maps from names to addresses of value arrays, value cells hold the arrays.
Addresses index the two cell lists; allocation appends.
-/
structure Store where
  csps : List (List (Str × Nat))
  vals : List (List Str)
deriving DecidableEq, Repr

/-- Read a policy cell; unallocated addresses read as empty. -/
def readCsp (s : Store) (a : Nat) : List (Str × Nat) := s.csps.getD a []

/-- Read a value cell; unallocated addresses read as empty. -/
def readVal (s : Store) (a : Nat) : List Str := s.vals.getD a []

/-- Overwrite a value cell in place. -/
def writeVal (s : Store) (a : Nat) (v : List Str) : Store :=
  { s with vals := s.vals.set a v }

/-- Overwrite a policy cell in place. -/
def writeCsp (s : Store) (a : Nat) (m : List (Str × Nat)) : Store :=
  { s with csps := s.csps.set a m }

/-- Allocate a fresh value cell, returning its address. -/
def allocVal (s : Store) (v : List Str) : Store × Nat :=
  ({ s with vals := s.vals ++ [v] }, s.vals.length)

/-- Allocate a fresh policy cell, returning its address. -/
def allocCsp (s : Store) (m : List (Str × Nat)) : Store × Nat :=
  ({ s with csps := s.csps ++ [m] }, s.csps.length)

/--
The value-copying loop of Csp.clone on the heap: a fresh value cell for
each directive array, accumulating the new directive map.
-/
def cloneVals (s : Store) (a : Nat) : Store × List (Str × Nat) :=
  (readCsp s a).foldl
    (fun (st : Store × List (Str × Nat)) e =>
      let al := allocVal st.1 (readVal st.1 e.2)
      (al.1, st.2 ++ [(e.1, al.2)]))
    (s, [])

/--
Csp.clone on the heap: a fresh value cell copying each directive array,
then a fresh policy object referencing the copies.
-/
def cloneCspH (s : Store) (a : Nat) : Store × Nat :=
  allocCsp (cloneVals s a).1 (cloneVals s a).2

/-- EnforcedCsps.clone on the heap: clone every policy, in order. -/
def cloneColH (s : Store) (col : List Nat) : Store × List Nat :=
  col.foldl
    (fun (st : Store × List Nat) a =>
      let cl := cloneCspH st.1 a
      (cl.1, st.2 ++ [cl.2]))
    (s, [])

/-- Materialize a heap policy into the value-level policy representation. -/
def matCsp (s : Store) (a : Nat) : Policy :=
  (readCsp s a).map (fun e => (e.1, readVal s e.2))

/--
EnforcedCsps.getEffectiveDirective on the heap: the directive itself when
some policy of the collection contains it, default-src otherwise.
-/
def colGetEffectiveDirective (s : Store) (col : List Nat) (d : Str) : Str :=
  if col.any (fun a => containsKey (matCsp s a) d) then d else DEFAULT_SRC

/-- The address, if any, a policy object maps a directive name to. -/
def dirAddr (s : Store) (a : Nat) (d : Str) : Option Nat :=
  match (readCsp s a).find? (fun e => e.1 = d) with
  | some e => some e.2
  | none => none

/--
Rule 1 of the per-policy body: when the clone's effective script policy
carries nonces or hashes, CSP2-and-later agents drop unsafe-inline (with
an ignored finding) and earlier agents drop each nonce- or sha-looking
value, writing the captured value cell of the clone.
-/
def effRule1 (directive : Str) (cspVersion : Nat) (values : List Str)
    (st : Store × List Finding) (aCl effAddr : Nat) : Store × List Finding :=
  if policyHasScriptNonces (matCsp st.1 aCl) ∨
      policyHasScriptHashes (matCsp st.1 aCl) then
    if 2 ≤ cspVersion then
      if KW_UNSAFE_INLINE ∈ values then
        (writeVal st.1 effAddr ((readVal st.1 effAddr).erase KW_UNSAFE_INLINE),
         st.2 ++ [{ type := .ignored, description := DESC_UI_IGNORED,
                    severity := .noneSev, directive := directive,
                    value := some KW_UNSAFE_INLINE }])
      else st
    else
      (values.foldl
        (fun acc v =>
          if nonceOrShaPrefix v then
            writeVal acc effAddr ((readVal acc effAddr).erase v)
          else acc)
        st.1, st.2)
  else st

/--
Rule 2 of the per-policy body: under strict-dynamic, CSP3-and-later agents
drop every non-quoted value as well as self and unsafe-inline (with
ignored findings) and earlier agents drop strict-dynamic itself, writing
the captured value cell of the clone.
-/
def effRule2 (directive : Str) (cspVersion : Nat) (values : List Str)
    (st1 : Store × List Finding) (aOrig effAddr : Nat) : Store × List Finding :=
  if policyHasStrictDynamic (matCsp st1.1 aOrig) then
    if 3 ≤ cspVersion then
      values.foldl
        (fun acc v =>
          if ¬ (v.head? = some SQ) ∨ v = KW_SELF ∨ v = KW_UNSAFE_INLINE then
            (writeVal acc.1 effAddr ((readVal acc.1 effAddr).erase v),
             acc.2 ++ [{ type := .ignored, description := DESC_SD_IGNORED,
                         severity := .noneSev, directive := directive,
                         value := some v }])
          else acc)
        st1
    else
      (writeVal st1.1 effAddr ((readVal st1.1 effAddr).erase KW_STRICT_DYNAMIC),
       st1.2)
  else st1

/--
Rule 3 of the per-policy body: below version 3 the CSP3-only directives
are deleted from the clone policy object.
-/
def effRule3 (cspVersion : Nat) (st2 : Store × List Finding) (aCl : Nat) :
    Store × List Finding :=
  if cspVersion < 3 then
    (writeCsp st2.1 aCl
      ((readCsp st2.1 aCl).filter
        (fun e => ¬ (e.1 = REPORT_TO ∨ e.1 = WORKER_SRC ∨ e.1 = MANIFEST_SRC ∨
          e.1 = TRUSTED_TYPES ∨ e.1 = REQUIRE_TRUSTED_TYPES_FOR))),
     st2.2)
  else st2

/--
The per-policy body of EnforcedCsps.getEffectiveCsps for one original
policy address and its clone address: the value list is read from the
original, removals write the captured value cell of the clone, the
CSP3-only directives are deleted from the clone object below version 3.
-/
def effStepH (directive : Str) (cspVersion : Nat)
    (st : Store × List Finding) (aOrig aCl : Nat) : Store × List Finding :=
  let values := lookupD (matCsp st.1 aOrig) directive
  match dirAddr st.1 aCl directive with
  | none => effRule3 cspVersion st aCl
  | some effAddr =>
    effRule3 cspVersion
      (effRule2 directive cspVersion values
        (effRule1 directive cspVersion values st aCl effAddr) aOrig effAddr)
      aCl

/--
EnforcedCsps.getEffectiveCsps on the heap: clone the collection, compute
the effective script-src directive over the clones, then run the
per-policy body over the paired original and clone addresses; the final
heap, the clone addresses and the findings are returned.
-/
def getEffectiveCspsH (s : Store) (col : List Nat) (cspVersion : Nat) :
    Store × List Nat × List Finding :=
  let cl := cloneColH s col
  let directive := colGetEffectiveDirective cl.1 cl.2 SCRIPT_SRC
  let run := (col.zip cl.2).foldl
    (fun (st : Store × List Finding) pr => effStepH directive cspVersion st pr.1 pr.2)
    (cl.1, [])
  (run.1, cl.2, run.2)

/--
Validity of a collection in a heap: every policy address is allocated and
every directive of every policy points at an allocated value cell.
-/
def validCol (s : Store) (col : List Nat) : Prop :=
  ∀ a ∈ col, a < s.csps.length ∧ ∀ e ∈ readCsp s a, e.2 < s.vals.length

/--
Frame predicate: every policy cell below the first bound and every value
cell below the second bound reads in the second heap exactly as in the
first, and the second heap is at least that large.
-/
def UntouchedBelow (n0 m0 : Nat) (s0 s : Store) : Prop :=
  n0 ≤ s.csps.length ∧ m0 ≤ s.vals.length ∧
    (∀ i, i < n0 → readCsp s i = readCsp s0 i) ∧
    (∀ i, i < m0 → readVal s i = readVal s0 i)

/--
A clone address lies above the original policy cells, is allocated, and
all value addresses its directive map holds lie above the original value
cells.
-/
def CloneHigh (n0 m0 : Nat) (s : Store) (a : Nat) : Prop :=
  n0 ≤ a ∧ a < s.csps.length ∧ ∀ e ∈ readCsp s a, m0 ≤ e.2

/--
A small concrete heap: one policy object at address 0 mapping script-src
to value cell 0, which holds unsafe-inline and a host source.
-/
def FW_STORE : Store :=
  { csps := [[(SCRIPT_SRC, 0)]], vals := [[KW_UNSAFE_INLINE, S (r"foo.bar")]] }

/-! ## Helper lemmas -/

theorem jsMin_le_left (a b : Nat) : jsMin a b ≤ a := by
  unfold jsMin; split <;> omega

theorem jsMin_le_right (a b : Nat) : jsMin a b ≤ b := by
  unfold jsMin; split <;> omega

theorem jsMin_cases (a b : Nat) : jsMin a b = a ∨ jsMin a b = b := by
  unfold jsMin; split <;> simp

theorem foldl_jsMin_le_init (l : List Nat) (a : Nat) : l.foldl jsMin a ≤ a := by
  induction l generalizing a with
  | nil => simp
  | cons x xs ih =>
    simp only [List.foldl_cons]
    exact Nat.le_trans (ih (jsMin a x)) (jsMin_le_left a x)

theorem foldl_jsMin_le_mem (l : List Nat) (a x : Nat) (hx : x ∈ l) :
    l.foldl jsMin a ≤ x := by
  induction l generalizing a with
  | nil => cases hx
  | cons y ys ih =>
    simp only [List.foldl_cons]
    rcases List.mem_cons.mp hx with h | h
    · subst h
      exact Nat.le_trans (foldl_jsMin_le_init ys (jsMin a x)) (jsMin_le_right a x)
    · exact ih (jsMin a y) h

theorem foldl_jsMin_mem_or (l : List Nat) (a : Nat) :
    l.foldl jsMin a = a ∨ l.foldl jsMin a ∈ l := by
  induction l generalizing a with
  | nil => simp
  | cons x xs ih =>
    simp only [List.foldl_cons]
    rcases ih (jsMin a x) with h | h
    · rcases jsMin_cases a x with h2 | h2
      · left; rw [h, h2]
      · right; rw [h, h2]; exact List.mem_cons_self x xs
    · right; exact List.mem_cons_of_mem x h

theorem Severity.val_le_hundred (s : Severity) : s.val ≤ 100 := by
  cases s <;> decide

/-! ## Theorems for the claims -/

/--
Claim C1: for the policy parsed from the example header (default-src with
unsafe-inline, strict-dynamic, a nonce, a hash and self, plus report-to,
worker-src and manifest-src), the effective policy at version 1 keeps
default-src as unsafe-inline and self with zero findings and drops the
three CSP3 directives; at version 2 it keeps the nonce, the hash and self
with exactly one IGNORED finding of severity NONE for unsafe-inline and
still drops the three CSP3 directives; at version 3 it keeps
strict-dynamic, the nonce and the hash, emits exactly three IGNORED
findings, and retains report-to, worker-src and manifest-src.
-/
theorem effectiveCsp_version_example :
    getEffectiveCsp (parseJs C1_INPUT) 1 =
      ([(DEFAULT_SRC, [KW_UNSAFE_INLINE, KW_SELF])], []) ∧
    getEffectiveCsp (parseJs C1_INPUT) 2 =
      ([(DEFAULT_SRC, [Q (r"nonce-123"), Q (r"sha256-foobar"), KW_SELF])],
       [{ type := .ignored, description := DESC_UI_IGNORED,
          severity := .noneSev, directive := DEFAULT_SRC,
          value := some KW_UNSAFE_INLINE }]) ∧
    getEffectiveCsp (parseJs C1_INPUT) 3 =
      ([(DEFAULT_SRC, [KW_STRICT_DYNAMIC, Q (r"nonce-123"), Q (r"sha256-foobar")]),
        (REPORT_TO, [S (r"foo.bar")]),
        (WORKER_SRC, [S (r"*")]),
        (MANIFEST_SRC, [S (r"*")])],
       [{ type := .ignored, description := DESC_UI_IGNORED,
          severity := .noneSev, directive := DEFAULT_SRC,
          value := some KW_UNSAFE_INLINE },
        { type := .ignored, description := DESC_SD_IGNORED,
          severity := .noneSev, directive := DEFAULT_SRC,
          value := some KW_UNSAFE_INLINE },
        { type := .ignored, description := DESC_SD_IGNORED,
          severity := .noneSev, directive := DEFAULT_SRC,
          value := some KW_SELF }]) := by
  decide

/--
Claim C7, counterexample: the resolver does not fail on the invalid
version ordinal 0; it returns the same ordinary degraded result as
version 1 does, on the example policy.
-/
theorem effectiveCsp_invalid_version_counter :
    getEffectiveCsp (parseJs C1_INPUT) 0 = getEffectiveCsp (parseJs C1_INPUT) 1 ∧
    (getEffectiveCsp (parseJs C1_INPUT) 0).1 =
      [(DEFAULT_SRC, [KW_UNSAFE_INLINE, KW_SELF])] := by
  decide

/--
Claim C7, amended: the effective-policy computation has no failure mode
for out-of-range version ordinals; every version at most 1 behaves exactly
as version 1 and every version at least 3 behaves exactly as version 3.
-/
theorem effectiveCsp_version_clamp (p : Policy) (v : Nat) :
    (v ≤ 1 → getEffectiveCsp p v = getEffectiveCsp p 1) ∧
    (3 ≤ v → getEffectiveCsp p v = getEffectiveCsp p 3) := by
  constructor
  · intro h
    unfold getEffectiveCsp
    simp only [show (2 ≤ v) = (2 ≤ 1) from by simp; omega,
      show (3 ≤ v) = (3 ≤ 1) from by simp; omega,
      show (v < 3) = (1 < 3) from by simp; omega]
  · intro h
    unfold getEffectiveCsp
    simp only [show (2 ≤ v) = (2 ≤ 3) from by simp; omega,
      show (3 ≤ v) = (3 ≤ 3) from by simp; omega,
      show (v < 3) = (3 < 3) from by simp; omega]

/-- Witness for the amended claim C7 at versions 0 and 7. -/
theorem effectiveCsp_version_clamp_witness :
    getEffectiveCsp [] 0 = getEffectiveCsp [] 1 ∧
    getEffectiveCsp [] 7 = getEffectiveCsp [] 3 :=
  ⟨(effectiveCsp_version_clamp [] 0).1 (by omega),
   (effectiveCsp_version_clamp [] 7).2 (by omega)⟩

/--
Claim C8: getHighestSeverity of a nonempty finding list is the numerically
smallest severity value occurring in the list, and of the empty list is
the NONE value 100.
-/
theorem getHighestSeverity_spec (fs : List Finding) (h : fs ≠ []) :
    getHighestSeverity [] = Severity.noneSev.val ∧
    getHighestSeverity fs ∈ fs.map (fun f => f.severity.val) ∧
    ∀ s ∈ fs.map (fun f => f.severity.val), getHighestSeverity fs ≤ s := by
  refine ⟨by decide, ?_, ?_⟩
  · unfold getHighestSeverity
    rw [if_neg (by simpa using h)]
    rcases foldl_jsMin_mem_or (fs.map (fun f => f.severity.val)) Severity.noneSev.val
      with he | he
    · rw [he]
      cases fs with
      | nil => cases h rfl
      | cons f fs2 =>
        have h1 := foldl_jsMin_le_mem
          ((f :: fs2).map (fun g => g.severity.val)) Severity.noneSev.val
          f.severity.val (by simp)
        rw [he] at h1
        have h2 := Severity.val_le_hundred f.severity
        have h100 : f.severity.val = Severity.noneSev.val := by
          have h3 : Severity.noneSev.val = 100 := rfl
          omega
        simp only [List.map_cons, List.mem_cons]
        left
        exact h100.symm
    · exact he
  · intro s hs
    unfold getHighestSeverity
    rw [if_neg (by simpa using h)]
    exact foldl_jsMin_le_mem _ _ s hs

/-- Witness for claim C8 on a one-element finding list. -/
theorem getHighestSeverity_spec_witness :
    getHighestSeverity [] = Severity.noneSev.val ∧
    getHighestSeverity [FW] ∈ [FW].map (fun f => f.severity.val) ∧
    ∀ s ∈ [FW].map (fun f => f.severity.val), getHighestSeverity [FW] ≤ s :=
  getHighestSeverity_spec [FW] (by decide)

/--
Claim C9: whenever the quoted none keyword appears among the effective
script-src values of a policy, the whitelist-bypass check returns no
findings, whatever the bypass datasets and the other values are.
-/
theorem whitelistBypass_none_empty (angularUrls jsonpUrls : List Url)
    (needsEval : List Str) (p : Policy)
    (h : KW_NONE ∈ lookupD p (getEffectiveDirective p SCRIPT_SRC)) :
    checkScriptWhitelistBypass angularUrls jsonpUrls needsEval p = [] := by
  unfold checkScriptWhitelistBypass
  simp only [h, if_pos]

/-- Witness for claim C9 on a concrete policy containing none and a host. -/
theorem whitelistBypass_none_empty_witness :
    checkScriptWhitelistBypass [] []
      [] [(SCRIPT_SRC, [KW_NONE, S (r"www.example.com")])] = [] :=
  whitelistBypass_none_empty [] [] []
    [(SCRIPT_SRC, [KW_NONE, S (r"www.example.com")])] (by decide)

theorem matchWildcardUrls_step (cspUrl url : Url) (rest : List Url) :
    matchWildcardUrls cspUrl (url :: rest) =
      if urlMatchesSpec cspUrl url then some url
      else matchWildcardUrls cspUrl rest := by
  simp only [matchWildcardUrls, urlMatchesSpec]
  split_ifs with h1 h2 h3 h4 <;> simp_all

/--
Claim C3: the wildcard matcher returns exactly the first candidate whose
domain ends with the wildcard-free lowercased pattern host, where the
pattern host began with star-dot or the domains are exactly equal, and
whose path prefix-matches a slash-terminated pattern path and equals a
non-slash-terminated one; and in particular the pattern
slash-slash-star-dot-google.com/wrongPath does not match the candidate
slash-slash-www.google.com/jsapi.
-/
theorem matchWildcardUrls_eq_find (cspUrl : Url) (urls : List Url) :
    matchWildcardUrls cspUrl urls = urls.find? (urlMatchesSpec cspUrl) ∧
    matchWildcardUrls (mkUri (S (r"//*.google.com/wrongPath")))
      [mkUri (S (r"//www.google.com/jsapi"))] = none := by
  refine ⟨?_, by decide⟩
  induction urls with
  | nil => rfl
  | cons url rest ih =>
    rw [matchWildcardUrls_step, ih]
    rcases hb : urlMatchesSpec cspUrl url with _ | _
    · simp [List.find?_cons, hb]
    · simp [List.find?_cons, hb]

/--
Claim C2: for every policy, the missing-directives check follows exactly
the branching the specification describes: with default-src present, a
missing object-src is reported (HIGH_MAYBE) exactly when object-src is
absent and none is not among the default-src values, a present base-uri
stops the check, and otherwise only base-uri remains to be checked; with
default-src absent, script-src, object-src and base-uri are each checked,
and a missing base-uri is reported only when the policy has script nonces
or script hashes together with strict-dynamic.
-/
theorem checkMissingDirectives_eq_spec (p : Policy) :
    checkMissingDirectives p = checkMissingDirectivesSpec p := by
  have h1 : SCRIPT_SRC ≠ OBJECT_SRC := by decide
  have h2 : SCRIPT_SRC ≠ BASE_URI := by decide
  have h3 : OBJECT_SRC ≠ BASE_URI := by decide
  have h4 : BASE_URI = BASE_URI := rfl
  have h5 : OBJECT_SRC = OBJECT_SRC := rfl
  unfold checkMissingDirectives checkMissingDirectivesSpec missingLoop
  simp only [List.foldl_cons, List.foldl_nil, h1, h2, h3, h4, h5]
  split_ifs <;> simp_all

/-! ## Character-level lemmas -/

theorem toNat_ofNat_small {n : Nat} (h : n < 55296) : (Char.ofNat n).toNat = n := by
  rw [Char.ofNat, dif_pos (Or.inl h)]
  simp [Char.ofNatAux, Char.toNat, UInt32.toNat]

theorem jsLowerChar_fix {c : Char}
    (h : ¬ ((65 ≤ c.toNat ∧ c.toNat ≤ 90) ∨
      (192 ≤ c.toNat ∧ c.toNat ≤ 222 ∧ c.toNat ≠ 215))) :
    jsLowerChar c = c := by
  rw [jsLowerChar, if_neg h]

theorem jsLowerChar_spec (c : Char) :
    jsLowerChar c = c ∨
      ((97 ≤ (jsLowerChar c).toNat ∧ (jsLowerChar c).toNat ≤ 122) ∨
       (224 ≤ (jsLowerChar c).toNat ∧ (jsLowerChar c).toNat ≤ 254)) := by
  by_cases h : (65 ≤ c.toNat ∧ c.toNat ≤ 90) ∨
      (192 ≤ c.toNat ∧ c.toNat ≤ 222 ∧ c.toNat ≠ 215)
  · right
    rw [jsLowerChar, if_pos h, toNat_ofNat_small (by omega)]
    omega
  · left; exact jsLowerChar_fix h

theorem jsLowerChar_idem (c : Char) :
    jsLowerChar (jsLowerChar c) = jsLowerChar c := by
  rcases jsLowerChar_spec c with h | h
  · rw [h, h]
  · exact jsLowerChar_fix (by omega)

theorem jsSpace_iff (c : Char) :
    jsSpace c = true ↔ c.toNat ∈ ([9, 10, 11, 12, 13, 32, 160, 0x1680, 0x2000,
      0x2001, 0x2002, 0x2003, 0x2004, 0x2005, 0x2006, 0x2007, 0x2008, 0x2009,
      0x200a, 0x2028, 0x2029, 0x202f, 0x205f, 0x3000, 0xfeff] : List Nat) := by
  simp [jsSpace]

theorem jsLowerChar_space (c : Char) (h : jsSpace c = false) :
    jsSpace (jsLowerChar c) = false := by
  rcases jsLowerChar_spec c with h2 | h2
  · rw [h2]; exact h
  · rw [Bool.eq_false_iff]
    intro hcon
    have hmem := (jsSpace_iff (jsLowerChar c)).mp hcon
    simp only [List.mem_cons, List.not_mem_nil, or_false] at hmem
    omega

theorem jsLowerChar_ne_semi (c : Char) (h : c ≠ ';') : jsLowerChar c ≠ ';' := by
  rcases jsLowerChar_spec c with h2 | h2
  · rw [h2]; exact h
  · intro hcon
    have h59 : (jsLowerChar c).toNat = 59 := by rw [hcon]; rfl
    omega

theorem jsLowerChar_latin1 (c : Char) (h : latin1 c = true) :
    latin1 (jsLowerChar c) = true := by
  rcases jsLowerChar_spec c with h2 | h2
  · rw [h2]; exact h
  · simp only [latin1, decide_eq_true_eq] at h ⊢
    omega

theorem jsLower_idem (l : Str) : jsLower (jsLower l) = jsLower l := by
  simp only [jsLower, List.map_map]
  exact List.map_congr_left (fun c _ => jsLowerChar_idem c)

theorem jsLower_goodStr (l : Str) (h : goodStr l) : goodStr (jsLower l) := by
  obtain ⟨h1, h2⟩ := h
  refine ⟨by simpa [jsLower] using h1, ?_⟩
  intro c hc
  rw [jsLower, List.mem_map] at hc
  obtain ⟨d, hd, rfl⟩ := hc
  obtain ⟨ha, hb, hc2⟩ := h2 d hd
  exact ⟨jsLowerChar_space d ha, jsLowerChar_ne_semi d hb, jsLowerChar_latin1 d hc2⟩

/-! ## Trim lemmas -/

theorem dropWhile_eq_self_of {p : Char → Bool} {l : Str}
    (h : ∀ c, l.head? = some c → p c = false) : l.dropWhile p = l := by
  cases l with
  | nil => rfl
  | cons c cs => simp [List.dropWhile_cons, h c rfl]

theorem jsTrimL_eq_self {l : Str} (h : ∀ c, l.head? = some c → jsSpace c = false) :
    jsTrimL l = l := dropWhile_eq_self_of h

theorem jsTrimR_eq_self {l : Str} (h : ∀ c, l.getLast? = some c → jsSpace c = false) :
    jsTrimR l = l := by
  unfold jsTrimR
  rw [dropWhile_eq_self_of, List.reverse_reverse]
  intro c hc
  exact h c (by rwa [← List.head?_reverse])

theorem jsTrim_eq_self {l : Str}
    (hh : ∀ c, l.head? = some c → jsSpace c = false)
    (hl : ∀ c, l.getLast? = some c → jsSpace c = false) : jsTrim l = l := by
  unfold jsTrim
  rw [jsTrimL_eq_self hh, jsTrimR_eq_self hl]

theorem jsTrim_eq_self_of_all {l : Str} (h : ∀ c ∈ l, jsSpace c = false) :
    jsTrim l = l :=
  jsTrim_eq_self
    (fun c hc => h c (by cases l with
      | nil => cases hc
      | cons d ds => simp_all))
    (fun c hc => h c (List.mem_of_getLast?_eq_some hc))

theorem jsTrimL_cons_space (l : Str) : jsTrimL (' ' :: l) = jsTrimL l := by
  simp [jsTrimL, List.dropWhile_cons, jsSpace]

theorem jsTrim_cons_space (l : Str) : jsTrim (' ' :: l) = jsTrim l := by
  unfold jsTrim
  rw [jsTrimL_cons_space]

theorem mem_of_mem_jsTrim {c : Char} {l : Str} (h : c ∈ jsTrim l) : c ∈ l := by
  unfold jsTrim jsTrimR jsTrimL at h
  rw [List.mem_reverse] at h
  have h1 : c ∈ (List.dropWhile jsSpace l).reverse :=
    (List.dropWhile_sublist _).mem h
  rw [List.mem_reverse] at h1
  exact (List.dropWhile_sublist _).mem h1

/-! ## splitSemi lemmas -/

theorem splitSemi_cons (c : Char) (cs : Str) :
    splitSemi (c :: cs) =
      if c = ';' then [] :: splitSemi cs
      else
        match splitSemi cs with
        | [] => [[c]]
        | p :: ps => (c :: p) :: ps := by
  rw [splitSemi]

theorem splitSemi_ne_nil (l : Str) : splitSemi l ≠ [] := by
  cases l with
  | nil => simp [splitSemi]
  | cons c cs =>
    rw [splitSemi_cons]
    split_ifs
    · simp
    · cases splitSemi cs <;> simp

theorem splitSemi_no {l : Str} (h : ';' ∉ l) : splitSemi l = [l] := by
  induction l with
  | nil => rfl
  | cons c cs ih =>
    have hc : c ≠ ';' := fun hcon => h (hcon ▸ List.mem_cons_self c cs)
    have hcs : ';' ∉ cs := fun hcon => h (List.mem_cons_of_mem c hcon)
    rw [splitSemi_cons, if_neg hc, ih hcs]

theorem splitSemi_append {l : Str} (r : Str) (h : ';' ∉ l) :
    splitSemi (l ++ ';' :: r) = l :: splitSemi r := by
  induction l with
  | nil => simp [splitSemi_cons]
  | cons c cs ih =>
    have hc : c ≠ ';' := fun hcon => h (hcon ▸ List.mem_cons_self c cs)
    have hcs : ';' ∉ cs := fun hcon => h (List.mem_cons_of_mem c hcon)
    rw [List.cons_append, splitSemi_cons, if_neg hc, ih hcs]

theorem splitSemi_mem {l t : Str} (ht : t ∈ splitSemi l) : ';' ∉ t ∧ ∀ c ∈ t, c ∈ l := by
  induction l generalizing t with
  | nil =>
    simp only [splitSemi] at ht
    simp only [List.mem_singleton] at ht
    subst ht
    simp
  | cons c cs ih =>
    rw [splitSemi_cons] at ht
    by_cases hc : c = ';'
    · rw [if_pos hc] at ht
      rcases List.mem_cons.mp ht with h | h
      · subst h; simp
      · obtain ⟨ha, hb⟩ := ih h
        exact ⟨ha, fun d hd => List.mem_cons_of_mem c (hb d hd)⟩
    · rw [if_neg hc] at ht
      cases hsp : splitSemi cs with
      | nil => exact absurd hsp (splitSemi_ne_nil cs)
      | cons p ps =>
        rw [hsp] at ht
        have hp : p ∈ splitSemi cs := by rw [hsp]; exact List.mem_cons_self p ps
        rcases List.mem_cons.mp ht with h | h
        · subst h
          obtain ⟨ha, hb⟩ := ih hp
          constructor
          · intro hcon
            rcases List.mem_cons.mp hcon with h2 | h2
            · exact hc h2.symm
            · exact ha h2
          · intro d hd
            rcases List.mem_cons.mp hd with h2 | h2
            · subst h2; exact List.mem_cons_self d cs
            · exact List.mem_cons_of_mem c (hb d h2)
        · obtain ⟨ha, hb⟩ := ih (by rw [hsp]; exact List.mem_cons_of_mem p h)
          exact ⟨ha, fun d hd => List.mem_cons_of_mem c (hb d hd)⟩

/-! ## jsWords lemmas -/

theorem jsWords_single {l : Str} (h1 : l ≠ []) (h2 : ∀ c ∈ l, jsSpace c = false) :
    jsWords l = [l] := by
  induction l with
  | nil => cases h1 rfl
  | cons c cs ih =>
    cases cs with
    | nil => simp [jsWords, h2 c (by simp)]
    | cons d rest =>
      have hc := h2 c (by simp)
      have hd := h2 d (by simp)
      have ihr := ih (by simp) (fun x hx => h2 x (List.mem_cons_of_mem c hx))
      simp only [jsWords, hc, hd, Bool.false_eq_true, if_false, ihr]

theorem jsWords_append_space {w : Str} (t : Str) (h1 : w ≠ [])
    (h2 : ∀ c ∈ w, jsSpace c = false) :
    jsWords (w ++ ' ' :: t) = w :: jsWords t := by
  induction w with
  | nil => cases h1 rfl
  | cons c cs ih =>
    cases cs with
    | nil =>
      have hc := h2 c (by simp)
      have hsp : jsSpace ' ' = true := by decide
      cases t with
      | nil => simp [jsWords, hc, hsp]
      | cons e t2 => simp [jsWords, hc, hsp]
    | cons d rest =>
      have hc := h2 c (by simp)
      have hd := h2 d (by simp)
      have ihr := ih (by simp) (fun x hx => h2 x (List.mem_cons_of_mem c hx))
      rw [List.cons_append] at ihr ⊢
      simp only [List.cons_append] at ihr ⊢
      simp only [jsWords, hc, hd, Bool.false_eq_true, if_false, ihr]

theorem jsWords_skip_space (t : Str) : jsWords (' ' :: t) = jsWords t := by
  cases t with
  | nil => simp [jsWords, jsSpace]
  | cons d rest => simp [jsWords, jsSpace]

theorem jsWords_mem {l w : Str} (hw : w ∈ jsWords l) :
    w ≠ [] ∧ ∀ c ∈ w, jsSpace c = false ∧ c ∈ l := by
  induction l using jsWords.induct generalizing w with
  | case1 => cases hw
  | case2 c hsp =>
    rw [jsWords, if_pos hsp] at hw
    cases hw
  | case3 c hsp =>
    rw [jsWords, if_neg hsp] at hw
    simp only [List.mem_singleton] at hw
    subst hw
    refine ⟨by simp, ?_⟩
    intro x hx
    simp only [List.mem_singleton] at hx
    subst hx
    exact ⟨by simpa using hsp, by simp⟩
  | case4 c d rest hsp ih =>
    rw [jsWords, if_pos hsp] at hw
    obtain ⟨ha, hb⟩ := ih hw
    exact ⟨ha, fun x hx => ⟨(hb x hx).1, List.mem_cons_of_mem c (hb x hx).2⟩⟩
  | case5 c d rest hsp hsp2 ih =>
    rw [jsWords, if_neg hsp, if_pos hsp2] at hw
    rcases List.mem_cons.mp hw with h | h
    · subst h
      refine ⟨by simp, ?_⟩
      intro x hx
      simp only [List.mem_singleton] at hx
      subst hx
      exact ⟨by simpa using hsp, by simp⟩
    · obtain ⟨ha, hb⟩ := ih h
      refine ⟨ha, fun x hx => ⟨(hb x hx).1, ?_⟩⟩
      have hxm := (hb x hx).2
      simp only [List.mem_cons] at hxm ⊢
      tauto
  | case6 c d rest hsp hsp2 hm ih =>
    rw [jsWords, if_neg hsp, if_neg hsp2, hm] at hw
    simp only [List.mem_singleton] at hw
    subst hw
    refine ⟨by simp, ?_⟩
    intro x hx
    simp only [List.mem_singleton] at hx
    subst hx
    exact ⟨by simpa using hsp, by simp⟩
  | case7 c d rest hsp hsp2 w1 ws hm ih =>
    rw [jsWords, if_neg hsp, if_neg hsp2, hm] at hw
    have hw1 : w1 ∈ jsWords (d :: rest) := by rw [hm]; exact List.mem_cons_self w1 ws
    rcases List.mem_cons.mp hw with h | h
    · subst h
      obtain ⟨ha, hb⟩ := ih hw1
      refine ⟨by simp, ?_⟩
      intro x hx
      rcases List.mem_cons.mp hx with h2 | h2
      · subst h2
        exact ⟨by simpa using hsp, by simp⟩
      · exact ⟨(hb x h2).1, List.mem_cons_of_mem c (hb x h2).2⟩
    · have hmem : w ∈ jsWords (d :: rest) := by rw [hm]; exact List.mem_cons_of_mem w1 h
      obtain ⟨ha, hb⟩ := ih hmem
      exact ⟨ha, fun x hx => ⟨(hb x hx).1, List.mem_cons_of_mem c (hb x hx).2⟩⟩

/--
Claim C10: a directive token that is a bare name with no values parses to
that directive, lower-cased, mapped to the empty value list, and
getEffectiveDirective on that name then returns the name itself rather
than falling back to default-src.
-/
theorem parse_name_only_token (w : Str) (h1 : w ≠ [])
    (h2 : ∀ c ∈ w, jsSpace c = false) (h3 : w.all latin1)
    (h4 : ';' ∉ w) :
    parseCsp w = [(jsLower w, [])] ∧
    getEffectiveDirective (parseCsp w) (jsLower w) = jsLower w := by
  have hp : parseCsp w = [(jsLower w, [])] := by
    unfold parseCsp
    rw [splitSemi_no h4]
    simp only [List.foldl_cons, List.foldl_nil]
    unfold parseToken
    rw [jsTrim_eq_self_of_all h2]
    rw [if_neg (by simpa using h1), if_neg (by simp [h3])]
    rw [jsWords_single h1 h2]
    simp [buildValues, containsKey]
  refine ⟨hp, ?_⟩
  rw [hp]
  unfold getEffectiveDirective
  rw [if_neg]
  simp [containsKey]

/-- Witness for claim C10 on the bare script-src token. -/
theorem parse_name_only_token_witness :
    parseCsp (S (r"SCRIPT-src")) = [(jsLower (S (r"SCRIPT-src")), [])] ∧
    getEffectiveDirective (parseCsp (S (r"SCRIPT-src")))
      (jsLower (S (r"SCRIPT-src"))) = jsLower (S (r"SCRIPT-src")) :=
  parse_name_only_token (S (r"SCRIPT-src")) (by decide) (by decide) (by decide)
    (by decide)

/-! ## First-occurrence-wins lemmas -/

theorem containsKey_iff_find? (p : Policy) (k : Str) :
    containsKey p k = (p.find? (fun e => e.1 = k)).isSome := by
  induction p with
  | nil => rfl
  | cons e es ih =>
    unfold containsKey at ih ⊢
    rw [List.any_cons, List.find?_cons]
    by_cases h : e.1 = k
    · simp [h]
    · simp [h, ih]

theorem find?_none_of_not_containsKey {acc : Policy} {k : Str}
    (h : ¬ containsKey acc k = true) :
    acc.find? (fun e => e.1 = k) = none := by
  rw [containsKey_iff_find?] at h
  exact Option.not_isSome_iff_eq_none.mp (by simpa using h)

theorem parseToken_eq_tokenPair (acc : Policy) (tok : Str) :
    parseToken acc tok =
      match tokenPair tok with
      | none => acc
      | some e => if containsKey acc e.1 then acc else acc ++ [e] := by
  unfold parseToken tokenPair
  by_cases h1 : jsTrim tok = []
  · rw [if_pos h1, if_pos h1]
  · rw [if_neg h1, if_neg h1]
    by_cases h2 : ¬ (jsTrim tok).all latin1
    · rw [if_pos h2, if_pos h2]
    · rw [if_neg h2, if_neg h2]
      cases jsWords (jsTrim tok) with
      | nil => rfl
      | cons w ws => rfl

theorem parse_foldl_eq_dedup (ts : List Str) (acc : Policy) :
    ts.foldl parseToken acc =
      (ts.filterMap tokenPair).foldl
        (fun acc e => if containsKey acc e.1 then acc else acc ++ [e]) acc := by
  induction ts generalizing acc with
  | nil => rfl
  | cons tok ts2 ih =>
    rw [List.foldl_cons, List.filterMap_cons, parseToken_eq_tokenPair]
    cases ht : tokenPair tok with
    | none => exact ih acc
    | some e => rw [List.foldl_cons]; exact ih _

theorem parseCsp_eq_dedup_tokenPairs (s : Str) :
    parseCsp s = dedupKeys (tokenPairs s) := by
  unfold parseCsp dedupKeys tokenPairs
  exact parse_foldl_eq_dedup (splitSemi s) []

theorem dedup_foldl_find (l : List (Str × List Str)) (acc : Policy) (n : Str) :
    ((l.foldl (fun acc e => if containsKey acc e.1 then acc else acc ++ [e]) acc).find?
        (fun e => e.1 = n)) =
      ((acc.find? (fun e => e.1 = n)).or (l.find? (fun e => e.1 = n))) := by
  induction l generalizing acc with
  | nil => simp
  | cons e l2 ih =>
    rw [List.foldl_cons, ih, List.find?_cons]
    by_cases hk : containsKey acc e.1
    · rw [if_pos hk]
      by_cases hn : e.1 = n
      · have hsome : (acc.find? (fun e2 => e2.1 = n)).isSome = true := by
          rw [← containsKey_iff_find?, ← hn]
          exact hk
        obtain ⟨x, hx⟩ := Option.isSome_iff_exists.mp hsome
        rw [hx]
        simp [hn]
      · simp [hn]
    · rw [if_neg hk, List.find?_append, Option.or_assoc]
      by_cases hn : e.1 = n
      · have hnone : acc.find? (fun e2 => e2.1 = n) = none :=
          find?_none_of_not_containsKey (by rwa [hn] at hk)
        simp [hnone, hn, List.find?_cons]
      · simp [hn, List.find?_cons]

theorem dedup_find (l : List (Str × List Str)) (n : Str) :
    (dedupKeys l).find? (fun e => e.1 = n) = l.find? (fun e => e.1 = n) := by
  unfold dedupKeys
  rw [dedup_foldl_find]
  simp

theorem dedup_foldl_mem (l : List (Str × List Str)) (acc : Policy)
    (e : Str × List Str)
    (he : e ∈ l.foldl (fun acc e => if containsKey acc e.1 then acc else acc ++ [e]) acc) :
    e ∈ acc ∨ e ∈ l := by
  induction l generalizing acc with
  | nil => exact Or.inl he
  | cons x l2 ih =>
    rw [List.foldl_cons] at he
    rcases ih _ he with h | h
    · by_cases hk : containsKey acc x.1
      · rw [if_pos hk] at h
        exact Or.inl h
      · rw [if_neg hk] at h
        rcases List.mem_append.mp h with h2 | h2
        · exact Or.inl h2
        · simp only [List.mem_singleton] at h2
          exact Or.inr (by rw [h2]; exact List.mem_cons_self x l2)
    · exact Or.inr (List.mem_cons_of_mem x h)

theorem dedup_mem {l : List (Str × List Str)} {e : Str × List Str}
    (he : e ∈ dedupKeys l) : e ∈ l := by
  rcases dedup_foldl_mem l [] e he with h | h
  · cases h
  · exact h

theorem dedup_foldl_nodup (l : List (Str × List Str)) (acc : Policy)
    (hacc : (acc.map Prod.fst).Nodup) :
    (((l.foldl (fun acc e => if containsKey acc e.1 then acc else acc ++ [e]) acc).map
      Prod.fst)).Nodup := by
  induction l generalizing acc with
  | nil => exact hacc
  | cons x l2 ih =>
    rw [List.foldl_cons]
    apply ih
    by_cases hk : containsKey acc x.1
    · rw [if_pos hk]; exact hacc
    · rw [if_neg hk, List.map_append]
      rw [List.nodup_append]
      refine ⟨hacc, by simp, ?_⟩
      intro a ha hb
      simp only [List.map_cons, List.map_nil, List.mem_singleton] at hb
      subst hb
      apply hk
      rw [List.mem_map] at ha
      obtain ⟨e2, he2, hfst⟩ := ha
      unfold containsKey
      rw [List.any_eq_true]
      exact ⟨e2, he2, by simp [hfst]⟩

theorem tokenPairs_key_lower {s : Str} {e : Str × List Str}
    (he : e ∈ tokenPairs s) : jsLower e.1 = e.1 := by
  unfold tokenPairs at he
  rw [List.mem_filterMap] at he
  obtain ⟨tok, _, htp⟩ := he
  unfold tokenPair at htp
  split_ifs at htp
  rcases hword : jsWords (jsTrim tok) with _ | ⟨w, ws⟩
  · rw [hword] at htp; cases htp
  · rw [hword] at htp
    simp only [Option.some.injEq] at htp
    subst htp
    exact jsLower_idem w

/--
Claim C4: for every input policy string, the parser stores only
lower-case-normal directive names, the stored names are pairwise distinct,
every stored entry is the contribution of some token, and looking any name
up in the parse result finds exactly what the first token carrying that
lower-cased name contributed, later duplicate tokens being discarded
whole.
-/
theorem parser_first_wins (s : Str) :
    (∀ n ∈ (parseCsp s).map Prod.fst, jsLower n = n) ∧
    ((parseCsp s).map Prod.fst).Nodup ∧
    (∀ e ∈ parseCsp s, e ∈ tokenPairs s) ∧
    (∀ n, (parseCsp s).find? (fun e => e.1 = n) =
      (tokenPairs s).find? (fun e => e.1 = n)) := by
  rw [parseCsp_eq_dedup_tokenPairs]
  refine ⟨?_, ?_, ?_, ?_⟩
  · intro n hn
    rw [List.mem_map] at hn
    obtain ⟨e, he, rfl⟩ := hn
    exact tokenPairs_key_lower (dedup_mem he)
  · exact dedup_foldl_nodup _ [] (by simp)
  · intro e he
    exact dedup_mem he
  · intro n
    exact dedup_find _ n

/-! ## Normalization and value-list lemmas -/

theorem takeWhile_ne_nil_eq_self {ws : List Str} (h : ∀ w ∈ ws, w ≠ []) :
    ws.takeWhile (fun w => w ≠ []) = ws := by
  induction ws with
  | nil => rfl
  | cons w ws2 ih =>
    rw [List.takeWhile_cons, if_pos (by simpa using h w (by simp))]
    rw [ih (fun x hx => h x (List.mem_cons_of_mem w hx))]

theorem asciiAlpha_lower {c : Char} (h : asciiAlpha c = true) :
    asciiAlpha (jsLowerChar c) = true := by
  unfold asciiAlpha at h
  simp only [decide_eq_true_eq] at h
  rcases h with h | h
  · rw [jsLowerChar, if_pos (Or.inl (by omega))]
    unfold asciiAlpha
    simp only [toNat_ofNat_small (show c.toNat + 32 < 55296 by omega),
      decide_eq_true_eq]
    omega
  · rw [jsLowerChar_fix (by omega)]
    unfold asciiAlpha
    simp only [decide_eq_true_eq]
    omega

theorem schemeChar_lower {c : Char} (h : schemeChar c = true) :
    schemeChar (jsLowerChar c) = true := by
  unfold schemeChar at h ⊢
  simp only [decide_eq_true_eq, Bool.or_eq_true] at h ⊢
  rcases h with h | h
  · left; exact asciiAlpha_lower (by simpa using h)
  · right
    have hfix : jsLowerChar c = c := by
      apply jsLowerChar_fix
      rcases h with h | h | h | h
      · simp only [asciiDigit, decide_eq_true_eq] at h
        omega
      all_goals (subst h; decide)
    rw [hfix]
    exact h

theorem isUrlScheme_lower {w : Str} (h : isUrlScheme w = true) :
    isUrlScheme (jsLower w) = true := by
  cases w with
  | nil => cases h
  | cons c rest =>
    unfold isUrlScheme at h
    simp only [decide_eq_true_eq, Bool.and_eq_true, decide_eq_true_eq] at h
    obtain ⟨h1, h2, h3, h4⟩ := h
    unfold jsLower
    rw [List.map_cons]
    unfold isUrlScheme
    simp only [decide_eq_true_eq, Bool.and_eq_true, decide_eq_true_eq]
    refine ⟨asciiAlpha_lower h1, by simpa using h2, ?_, ?_⟩
    · rw [← List.map_dropLast, List.all_map]
      rw [List.all_eq_true] at h3 ⊢
      intro x hx
      exact schemeChar_lower (h3 x hx)
    · rw [List.getLast?_map, h4]
      simp [show jsLowerChar ':' = ':' from by decide]

theorem normalize_of_nospace {w : Str} (h : ∀ c ∈ w, jsSpace c = false) :
    normalizeDirectiveValue w =
      if isKeyword (jsLower w) ∨ isUrlScheme w then jsLower w else w := by
  unfold normalizeDirectiveValue
  rw [jsTrim_eq_self_of_all h]

theorem normalize_goodStr {w : Str} (h : goodStr w) :
    goodStr (normalizeDirectiveValue w) := by
  rw [normalize_of_nospace (fun c hc => (h.2 c hc).1)]
  split_ifs with hk
  · exact jsLower_goodStr w h
  · exact h

theorem normalize_idem {w : Str} (h : goodStr w) :
    normalizeDirectiveValue (normalizeDirectiveValue w) =
      normalizeDirectiveValue w := by
  have hns : ∀ c ∈ w, jsSpace c = false := fun c hc => (h.2 c hc).1
  have hlns : ∀ c ∈ jsLower w, jsSpace c = false :=
    fun c hc => ((jsLower_goodStr w h).2 c hc).1
  rw [normalize_of_nospace hns]
  by_cases hk : isKeyword (jsLower w) = true
  · rw [if_pos (Or.inl hk), normalize_of_nospace hlns, jsLower_idem,
      if_pos (Or.inl hk)]
  · by_cases hs : isUrlScheme w = true
    · rw [if_pos (Or.inr hs), normalize_of_nospace hlns, jsLower_idem,
        if_pos (Or.inr (isUrlScheme_lower hs))]
    · rw [if_neg (by simp [hk, hs]), normalize_of_nospace hns,
        if_neg (by simp [hk, hs])]

theorem buildValues_foldl_mem {ws : List Str} {acc : List Str} {v : Str}
    (hv : v ∈ ws.foldl
      (fun acc w =>
        if normalizeDirectiveValue w ∈ acc then acc
        else acc ++ [normalizeDirectiveValue w]) acc) :
    v ∈ acc ∨ ∃ w ∈ ws, v = normalizeDirectiveValue w := by
  induction ws generalizing acc with
  | nil => exact Or.inl hv
  | cons w ws2 ih =>
    rw [List.foldl_cons] at hv
    rcases ih hv with h | h
    · by_cases hin : normalizeDirectiveValue w ∈ acc
      · rw [if_pos hin] at h
        exact Or.inl h
      · rw [if_neg hin] at h
        rcases List.mem_append.mp h with h2 | h2
        · exact Or.inl h2
        · simp only [List.mem_singleton] at h2
          exact Or.inr ⟨w, by simp, h2⟩
    · obtain ⟨w2, hw2, hv2⟩ := h
      exact Or.inr ⟨w2, List.mem_cons_of_mem w hw2, hv2⟩

theorem buildValues_mem {ws : List Str} {v : Str} (hv : v ∈ buildValues ws) :
    ∃ w ∈ ws, v = normalizeDirectiveValue w := by
  unfold buildValues at hv
  rcases buildValues_foldl_mem hv with h | h
  · cases h
  · obtain ⟨w, hw, hv2⟩ := h
    exact ⟨w, (List.takeWhile_sublist _).mem hw, hv2⟩

theorem buildValues_foldl_nodup (ws : List Str) (acc : List Str)
    (hacc : acc.Nodup) :
    (ws.foldl
      (fun acc w =>
        if normalizeDirectiveValue w ∈ acc then acc
        else acc ++ [normalizeDirectiveValue w]) acc).Nodup := by
  induction ws generalizing acc with
  | nil => exact hacc
  | cons w ws2 ih =>
    rw [List.foldl_cons]
    apply ih
    by_cases hin : normalizeDirectiveValue w ∈ acc
    · rw [if_pos hin]; exact hacc
    · rw [if_neg hin, List.nodup_append]
      refine ⟨hacc, by simp, ?_⟩
      intro a ha hb
      simp only [List.mem_singleton] at hb
      subst hb
      exact hin ha

theorem buildValues_nodup (ws : List Str) : (buildValues ws).Nodup :=
  buildValues_foldl_nodup _ [] (by simp)

theorem buildValues_fixed_aux (vs : List Str) (acc : List Str)
    (h : ∀ v ∈ vs, normalizeDirectiveValue v = v)
    (hdisj : ∀ v ∈ vs, v ∉ acc) (hn : vs.Nodup) :
    vs.foldl
      (fun acc w =>
        if normalizeDirectiveValue w ∈ acc then acc
        else acc ++ [normalizeDirectiveValue w]) acc = acc ++ vs := by
  induction vs generalizing acc with
  | nil => simp
  | cons v vs2 ih =>
    rw [List.foldl_cons, h v (by simp), if_neg (hdisj v (by simp))]
    rw [ih _ (fun x hx => h x (List.mem_cons_of_mem v hx)) ?_
      (List.Nodup.of_cons hn)]
    · rw [List.append_assoc]
      rfl
    · intro x hx
      rw [List.mem_append]
      rintro (hx2 | hx2)
      · exact hdisj x (List.mem_cons_of_mem v hx) hx2
      · simp only [List.mem_singleton] at hx2
        subst hx2
        exact (List.nodup_cons.mp hn).1 hx

theorem buildValues_fixed {vs : List Str}
    (h : ∀ v ∈ vs, v ≠ [] ∧ normalizeDirectiveValue v = v) (hn : vs.Nodup) :
    buildValues vs = vs := by
  unfold buildValues
  rw [takeWhile_ne_nil_eq_self (fun v hv => (h v hv).1)]
  simpa using buildValues_fixed_aux vs [] (fun v hv => (h v hv).2) (by simp) hn

theorem word_good {tok w : Str} (hsemi : ';' ∉ tok)
    (hlatin : (jsTrim tok).all latin1 = true)
    (hw : w ∈ jsWords (jsTrim tok)) : goodStr w := by
  obtain ⟨hne, hprop⟩ := jsWords_mem hw
  refine ⟨hne, ?_⟩
  intro c hc
  obtain ⟨hsp, hmem⟩ := hprop c hc
  have hmem2 : c ∈ tok := mem_of_mem_jsTrim hmem
  refine ⟨hsp, fun hcon => hsemi (hcon ▸ hmem2), ?_⟩
  rw [List.all_eq_true] at hlatin
  exact hlatin c hmem

theorem tokenPairs_entry_good {s : Str} {e : Str × List Str}
    (he : e ∈ tokenPairs s) :
    goodStr e.1 ∧ jsLower e.1 = e.1 ∧ e.2.Nodup ∧
      ∀ v ∈ e.2, goodStr v ∧ normalizeDirectiveValue v = v := by
  unfold tokenPairs at he
  rw [List.mem_filterMap] at he
  obtain ⟨tok, htok, htp⟩ := he
  obtain ⟨hsemi, _⟩ := splitSemi_mem htok
  unfold tokenPair at htp
  split_ifs at htp with h1 h2
  rcases hword : jsWords (jsTrim tok) with _ | ⟨w, ws⟩
  · rw [hword] at htp; cases htp
  · rw [hword] at htp
    simp only [Option.some.injEq] at htp
    have hlatin : (jsTrim tok).all latin1 = true := by simpa using h2
    have hwgood : goodStr w :=
      word_good hsemi hlatin (by rw [hword]; exact List.mem_cons_self w ws)
    subst htp
    refine ⟨jsLower_goodStr w hwgood, jsLower_idem w, buildValues_nodup ws, ?_⟩
    intro v hv
    obtain ⟨w2, hw2, rfl⟩ := buildValues_mem hv
    have hw2good : goodStr w2 :=
      word_good hsemi hlatin (by rw [hword]; exact List.mem_cons_of_mem w hw2)
    exact ⟨normalize_goodStr hw2good, normalize_idem hw2good⟩

theorem parseCsp_entries {s : Str} {e : Str × List Str}
    (he : e ∈ parseCsp s) : e ∈ tokenPairs s := by
  rw [parseCsp_eq_dedup_tokenPairs] at he
  exact dedup_mem he

theorem parseCsp_inv (s : Str) : PolicyInv (parseCsp s) := by
  refine ⟨?_, ?_⟩
  · rw [parseCsp_eq_dedup_tokenPairs]
    exact dedup_foldl_nodup _ [] (by simp)
  · intro e he
    exact tokenPairs_entry_good (parseCsp_entries he)

/-! ## jsWords ignores trimming -/

theorem jsWords_cons_space {c : Char} (cs : Str) (h : jsSpace c = true) :
    jsWords (c :: cs) = jsWords cs := by
  cases cs with
  | nil => simp [jsWords, h]
  | cons d rest => simp [jsWords, h]

theorem jsWords_snoc_space {c : Char} (h : jsSpace c = true) (l : Str) :
    jsWords (l ++ [c]) = jsWords l := by
  induction l using jsWords.induct with
  | case1 => simp [jsWords, h]
  | case2 a ha =>
    rw [List.cons_append, List.nil_append, jsWords_cons_space _ ha,
      jsWords_cons_space _ ha]
    simp [jsWords, h]
  | case3 a ha =>
    have ha2 : jsSpace a = false := by simpa using ha
    simp [jsWords, ha2, h]
  | case4 a b r ha ih =>
    rw [List.cons_append, jsWords_cons_space _ ha, jsWords_cons_space _ ha]
    exact ih
  | case5 a b r ha hb ih =>
    have ha2 : jsSpace a = false := by simpa using ha
    show jsWords (a :: b :: (r ++ [c])) = jsWords (a :: b :: r)
    simp only [jsWords, ha2, hb, Bool.false_eq_true, if_false, if_true]
    rw [ih]
  | case6 a b r ha hb hm ih =>
    have ha2 : jsSpace a = false := by simpa using ha
    have hb2 : jsSpace b = false := by simpa using hb
    have ihm : jsWords (b :: (r ++ [c])) = [] := by
      have he : (b :: r) ++ [c] = b :: (r ++ [c]) := by simp
      rw [← he, ih, hm]
    show jsWords (a :: b :: (r ++ [c])) = jsWords (a :: b :: r)
    simp only [jsWords, ha2, hb2, Bool.false_eq_true, if_false, ihm, hm]
  | case7 a b r ha hb p ps hm ih =>
    have ha2 : jsSpace a = false := by simpa using ha
    have hb2 : jsSpace b = false := by simpa using hb
    have ihm : jsWords (b :: (r ++ [c])) = p :: ps := by
      have he : (b :: r) ++ [c] = b :: (r ++ [c]) := by simp
      rw [← he, ih, hm]
    show jsWords (a :: b :: (r ++ [c])) = jsWords (a :: b :: r)
    simp only [jsWords, ha2, hb2, Bool.false_eq_true, if_false, ihm, hm]

theorem jsWords_append_spaces {sp : Str} (hsp : ∀ c ∈ sp, jsSpace c = true) :
    ∀ l : Str, jsWords (l ++ sp) = jsWords l := by
  induction sp with
  | nil => simp
  | cons c sp2 ih =>
    intro l
    have he : l ++ (c :: sp2) = (l ++ [c]) ++ sp2 := by simp
    rw [he, ih (fun x hx => hsp x (List.mem_cons_of_mem c hx)),
      jsWords_snoc_space (hsp c (by simp))]

theorem jsWords_prepend_spaces {sp : Str} (hsp : ∀ c ∈ sp, jsSpace c = true)
    (l : Str) : jsWords (sp ++ l) = jsWords l := by
  induction sp with
  | nil => simp
  | cons c sp2 ih =>
    rw [List.cons_append, jsWords_cons_space _ (hsp c (by simp))]
    exact ih (fun x hx => hsp x (List.mem_cons_of_mem c hx))

theorem jsWords_trimL (l : Str) : jsWords (jsTrimL l) = jsWords l := by
  conv =>
    rhs
    rw [← List.takeWhile_append_dropWhile (p := jsSpace) (l := l)]
  rw [jsWords_prepend_spaces (fun c hc => List.mem_takeWhile_imp hc)]
  rfl

theorem jsWords_trimR (l : Str) : jsWords (jsTrimR l) = jsWords l := by
  have hdecomp : l = jsTrimR l ++ (l.reverse.takeWhile jsSpace).reverse := by
    unfold jsTrimR
    rw [← List.reverse_append, List.takeWhile_append_dropWhile,
      List.reverse_reverse]
  conv =>
    rhs
    rw [hdecomp]
  rw [jsWords_append_spaces]
  intro c hc
  rw [List.mem_reverse] at hc
  exact List.mem_takeWhile_imp hc

theorem jsWords_trim (l : Str) : jsWords (jsTrim l) = jsWords l := by
  unfold jsTrim
  rw [jsWords_trimR, jsWords_trimL]

/-! ## Parsing a serialized policy -/

theorem jsWords_body {n : Str} {vs : List Str} (hn1 : n ≠ [])
    (hn2 : ∀ c ∈ n, jsSpace c = false)
    (hvs : ∀ v ∈ vs, v ≠ [] ∧ ∀ c ∈ v, jsSpace c = false) :
    jsWords (n ++ ((vs.map (fun v => ' ' :: v)).flatten)) = n :: vs := by
  induction vs generalizing n with
  | nil =>
    simp only [List.map_nil, List.flatten_nil, List.append_nil]
    exact jsWords_single hn1 hn2
  | cons v vs2 ih =>
    have he : n ++ (((v :: vs2).map (fun v => ' ' :: v)).flatten) =
        n ++ ' ' :: (v ++ ((vs2.map (fun v => ' ' :: v)).flatten)) := by
      simp
    rw [he, jsWords_append_space _ hn1 hn2,
      ih (hvs v (by simp)).1 (hvs v (by simp)).2
        (fun x hx => hvs x (List.mem_cons_of_mem v hx))]

theorem containsKey_iff_mem_keys (p : Policy) (k : Str) :
    containsKey p k = true ↔ k ∈ p.map Prod.fst := by
  unfold containsKey
  rw [List.any_eq_true]
  constructor
  · rintro ⟨e, he, hk⟩
    simp only [decide_eq_true_eq] at hk
    exact hk ▸ List.mem_map_of_mem Prod.fst he
  · intro hk
    rw [List.mem_map] at hk
    obtain ⟨e, he, hk⟩ := hk
    exact ⟨e, he, by simp [hk]⟩

theorem parseToken_skip_space (acc : Policy) (tok : Str) :
    parseToken acc (' ' :: tok) = parseToken acc tok := by
  unfold parseToken
  rw [jsTrim_cons_space]

theorem parse_fold_skip_space (l : Str) (acc : Policy) :
    (splitSemi (' ' :: l)).foldl parseToken acc =
      (splitSemi l).foldl parseToken acc := by
  rw [splitSemi_cons, if_neg (by decide)]
  cases hsp : splitSemi l with
  | nil => exact absurd hsp (splitSemi_ne_nil l)
  | cons p ps =>
    rw [List.foldl_cons, List.foldl_cons, parseToken_skip_space]

theorem entry_body_semi_free {e : Str × List Str}
    (hgood : goodStr e.1 ∧ jsLower e.1 = e.1 ∧ e.2.Nodup ∧
      ∀ v ∈ e.2, goodStr v ∧ normalizeDirectiveValue v = v) :
    ';' ∉ e.1 ++ ((e.2.map (fun v => ' ' :: v)).flatten) := by
  intro hcon
  rcases List.mem_append.mp hcon with h | h
  · exact (hgood.1.2 ';' h).2.1 rfl
  · rw [List.mem_flatten] at h
    obtain ⟨piece, hp, hmem⟩ := h
    rw [List.mem_map] at hp
    obtain ⟨v, hv, rfl⟩ := hp
    rcases List.mem_cons.mp hmem with h2 | h2
    · cases h2
    · exact (((hgood.2.2.2 v hv).1).2 ';' h2).2.1 rfl

theorem entry_body_latin1 {e : Str × List Str}
    (hgood : goodStr e.1 ∧ jsLower e.1 = e.1 ∧ e.2.Nodup ∧
      ∀ v ∈ e.2, goodStr v ∧ normalizeDirectiveValue v = v) :
    ∀ c ∈ e.1 ++ ((e.2.map (fun v => ' ' :: v)).flatten), latin1 c = true := by
  intro c hc
  rcases List.mem_append.mp hc with h | h
  · exact (hgood.1.2 c h).2.2
  · rw [List.mem_flatten] at h
    obtain ⟨piece, hp, hmem⟩ := h
    rw [List.mem_map] at hp
    obtain ⟨v, hv, rfl⟩ := hp
    rcases List.mem_cons.mp hmem with h2 | h2
    · subst h2; decide
    · exact (((hgood.2.2.2 v hv).1).2 c h2).2.2

theorem parseToken_serialized (acc : Policy) (e : Str × List Str)
    (hgood : goodStr e.1 ∧ jsLower e.1 = e.1 ∧ e.2.Nodup ∧
      ∀ v ∈ e.2, goodStr v ∧ normalizeDirectiveValue v = v)
    (hkey : ¬ containsKey acc e.1 = true) :
    parseToken acc (e.1 ++ ((e.2.map (fun v => ' ' :: v)).flatten)) =
      acc ++ [e] := by
  have hwords : jsWords (jsTrim (e.1 ++ ((e.2.map (fun v => ' ' :: v)).flatten))) =
      e.1 :: e.2 := by
    rw [jsWords_trim]
    exact jsWords_body hgood.1.1 (fun c hc => (hgood.1.2 c hc).1)
      (fun v hv => ⟨((hgood.2.2.2 v hv).1).1,
        fun c hc => ((((hgood.2.2.2 v hv).1).2) c hc).1⟩)
  have h1 : ¬ (jsTrim (e.1 ++ ((e.2.map (fun v => ' ' :: v)).flatten)) = []) := by
    intro hcon
    rw [hcon] at hwords
    cases hwords
  have h2 : (jsTrim (e.1 ++ ((e.2.map (fun v => ' ' :: v)).flatten))).all latin1
      = true := by
    rw [List.all_eq_true]
    intro c hc
    exact entry_body_latin1 hgood c (mem_of_mem_jsTrim hc)
  unfold parseToken
  rw [if_neg h1, if_neg (by simp [h2]), hwords]
  show (if containsKey acc (jsLower e.1) = true then acc
        else acc ++ [(jsLower e.1, buildValues e.2)]) = acc ++ [e]
  rw [hgood.2.1, if_neg hkey,
    buildValues_fixed
      (fun v hv => ⟨((hgood.2.2.2 v hv).1).1, (hgood.2.2.2 v hv).2⟩)
      hgood.2.2.1]

theorem convertToString_cons (e : Str × List Str) (p : Policy)
    (hval : ∀ v ∈ e.2, v ≠ []) :
    convertToString (e :: p) =
      (e.1 ++ ((e.2.map (fun v => ' ' :: v)).flatten)) ++
        ';' :: ' ' :: convertToString p := by
  unfold convertToString serializeDirective
  rw [List.map_cons, List.flatten_cons, takeWhile_ne_nil_eq_self hval,
    show S (r"; ") = [';', ' '] from rfl]
  simp only [List.append_assoc, List.cons_append, List.nil_append]

theorem parse_serialized_fold (p : Policy) : ∀ acc : Policy,
    (∀ e ∈ p, goodStr e.1 ∧ jsLower e.1 = e.1 ∧ e.2.Nodup ∧
      ∀ v ∈ e.2, goodStr v ∧ normalizeDirectiveValue v = v) →
    (((acc ++ p).map Prod.fst)).Nodup →
    (splitSemi (convertToString p)).foldl parseToken acc = acc ++ p := by
  induction p with
  | nil =>
    intro acc _ _
    simp [convertToString, splitSemi, List.foldl_cons, List.foldl_nil]
    rfl
  | cons e p2 ih =>
    intro acc hgood hnodup
    have hval : ∀ v ∈ e.2, v ≠ [] := by
      intro v hv
      exact (((hgood e (by simp)).2.2.2 v hv).1).1
    rw [convertToString_cons e p2 hval]
    have hbody := entry_body_semi_free (hgood e (by simp))
    rw [splitSemi_append _ hbody, List.foldl_cons]
    have hkey : ¬ containsKey acc e.1 = true := by
      intro hcon
      rw [containsKey_iff_mem_keys] at hcon
      rw [List.map_append, List.nodup_append] at hnodup
      exact hnodup.2.2 hcon (by simp)
    rw [parseToken_serialized acc e (hgood e (by simp)) hkey,
      parse_fold_skip_space]
    rw [ih (acc ++ [e]) (fun x hx => hgood x (List.mem_cons_of_mem e hx))
      (by rwa [List.append_assoc] )]
    rw [List.append_assoc]
    rfl

theorem parseCsp_convertToString {p : Policy} (hp : PolicyInv p) :
    parseCsp (convertToString p) = p := by
  unfold parseCsp
  have := parse_serialized_fold p [] hp.2 (by simpa using hp.1)
  simpa using this

/-! ## Comma-space occurrence lemmas -/

theorem hasCS_cons2 (x y : Char) (r : Str) :
    hasCS (x :: y :: r) = true ↔ (x = ',' ∧ y = ' ') ∨ hasCS (y :: r) = true := by
  simp [hasCS]

theorem hasCS_cons_of_ne {x : Char} (hx : x ≠ ',') (l : Str) :
    hasCS (x :: l) = hasCS l := by
  cases l with
  | nil => simp [hasCS]
  | cons y r => simp [hasCS, hx]

theorem hasCS_no_space {l : Str} (h : ∀ c ∈ l, c ≠ ' ') : hasCS l = false := by
  induction l with
  | nil => rfl
  | cons x l2 ih =>
    cases l2 with
    | nil => rfl
    | cons y r =>
      rw [Bool.eq_false_iff]
      intro hcon
      rcases (hasCS_cons2 x y r).mp hcon with h2 | h2
      · exact h y (by simp) h2.2
      · have := ih (fun c hc => h c (List.mem_cons_of_mem x hc))
        rw [this] at h2
        cases h2

theorem hasCS_append (a b : Str) :
    hasCS (a ++ b) = true ↔
      hasCS a = true ∨ hasCS b = true ∨
        (a.getLast? = some ',' ∧ b.head? = some ' ') := by
  induction a with
  | nil => simp [hasCS]
  | cons x a2 ih =>
    cases a2 with
    | nil =>
      cases b with
      | nil => simp [hasCS]
      | cons y b2 =>
        rw [List.cons_append, List.nil_append, hasCS_cons2]
        simp only [hasCS, List.getLast?_singleton, List.head?_cons,
          Option.some.injEq, Bool.false_eq_true, false_or]
        constructor
        · rintro (h1 | h1)
          · exact Or.inr ⟨h1.1, h1.2⟩
          · exact Or.inl h1
        · rintro (h1 | h1)
          · exact Or.inr h1
          · exact Or.inl ⟨h1.1, h1.2⟩
    | cons z a3 =>
      have he : ((x :: z :: a3 : Str)) ++ b = x :: ((z :: a3) ++ b) := by simp
      rw [he, List.cons_append, hasCS_cons2, ← List.cons_append, ih,
        hasCS_cons2, List.getLast?_cons_cons]
      tauto

theorem ne_space_of_good {v : Str} (hv : ∀ c ∈ v, jsSpace c = false) :
    ∀ c ∈ v, c ≠ ' ' := by
  intro c hc hcon
  subst hcon
  have := hv ' ' hc
  simp [jsSpace] at this

theorem hasCS_valuesPart {vs : List Str}
    (h : ∀ v ∈ vs, (∀ c ∈ v, c ≠ ' ') ∧ v.getLast? ≠ some ',') :
    hasCS ((vs.map (fun v => ' ' :: v)).flatten) = false := by
  induction vs with
  | nil => rfl
  | cons v vs2 ih =>
    rw [List.map_cons, List.flatten_cons]
    rw [Bool.eq_false_iff]
    intro hcon
    rcases (hasCS_append _ _).mp hcon with h2 | h2 | h2
    · rw [hasCS_cons_of_ne (by decide) v,
        hasCS_no_space (h v (by simp)).1] at h2
      cases h2
    · rw [ih (fun x hx => h x (List.mem_cons_of_mem v hx))] at h2
      cases h2
    · cases hv : v with
      | nil =>
        rw [hv] at h2
        simp at h2
      | cons c r =>
        have hlast : ((' ' :: v : Str)).getLast? = v.getLast? := by
          rw [hv]
          exact List.getLast?_cons_cons
        rw [hlast] at h2
        exact (h v (by simp)).2 h2.1

theorem hasCS_convertToString {p : Policy}
    (hgood : ∀ e ∈ p, goodStr e.1 ∧ jsLower e.1 = e.1 ∧ e.2.Nodup ∧
      ∀ v ∈ e.2, goodStr v ∧ normalizeDirectiveValue v = v)
    (hcomma : ∀ e ∈ p, e.1.getLast? ≠ some ',' ∧ ∀ v ∈ e.2, v.getLast? ≠ some ',') :
    hasCS (convertToString p) = false := by
  induction p with
  | nil => rfl
  | cons e p2 ih =>
    have hval : ∀ v ∈ e.2, v ≠ [] :=
      fun v hv => (((hgood e (by simp)).2.2.2 v hv).1).1
    rw [convertToString_cons e p2 hval, Bool.eq_false_iff]
    intro hcon
    rcases (hasCS_append _ _).mp hcon with h2 | h2 | h2
    · rcases (hasCS_append _ _).mp h2 with h3 | h3 | h3
      · rw [hasCS_no_space
          (ne_space_of_good (fun c hc => ((hgood e (by simp)).1.2 c hc).1))] at h3
        cases h3
      · rw [hasCS_valuesPart (fun v hv =>
          ⟨ne_space_of_good (fun c hc => ((((hgood e (by simp)).2.2.2 v hv).1).2 c hc).1),
           (hcomma e (by simp)).2 v hv⟩)] at h3
        cases h3
      · cases hvs : e.2 with
        | nil =>
          rw [hvs] at h3
          simp at h3
        | cons v vs2 =>
          rw [hvs] at h3
          simp only [List.map_cons, List.flatten_cons] at h3
          exact (hcomma e (by simp)).1 h3.1
    · rw [hasCS_cons_of_ne (by decide), hasCS_cons_of_ne (by decide),
        ih (fun x hx => hgood x (List.mem_cons_of_mem e hx))
          (fun x hx => hcomma x (List.mem_cons_of_mem e hx))] at h2
      cases h2
    · simp at h2

/-! ## splitCS lemmas -/

theorem splitCS_no {l : Str} (h : hasCS l = false) : splitCS l = [l] := by
  induction l with
  | nil => rfl
  | cons a l2 ih =>
    cases l2 with
    | nil => rfl
    | cons b l3 =>
      have hpair : ¬ (a = ',' ∧ b = ' ') := by
        intro hcon
        rw [show hasCS (a :: b :: l3) =
          ((a = ',' ∧ b = ' ') ∨ hasCS (b :: l3) : Bool) from by simp [hasCS]] at h
        simp [hcon] at h
      have htail : hasCS (b :: l3) = false := by
        rw [Bool.eq_false_iff]
        intro hcon
        rw [Bool.eq_false_iff] at h
        exact h ((hasCS_cons2 a b l3).mpr (Or.inr hcon))
      rw [splitCS, if_neg hpair, ih htail]

theorem splitCS_append {l : Str} (r : Str) (h : hasCS l = false) :
    splitCS (l ++ ',' :: ' ' :: r) = l :: splitCS r := by
  induction l with
  | nil =>
    rw [List.nil_append, splitCS, if_pos ⟨rfl, rfl⟩]
  | cons a l2 ih =>
    cases l2 with
    | nil =>
      rw [List.cons_append, List.nil_append, splitCS,
        if_neg (by rintro ⟨h1, h2⟩; cases h2), splitCS, if_pos ⟨rfl, rfl⟩]
    | cons b l3 =>
      have hpair : ¬ (a = ',' ∧ b = ' ') := by
        intro hcon
        rw [show hasCS (a :: b :: l3) =
          ((a = ',' ∧ b = ' ') ∨ hasCS (b :: l3) : Bool) from by simp [hasCS]] at h
        simp [hcon] at h
      have htail : hasCS (b :: l3) = false := by
        rw [Bool.eq_false_iff]
        intro hcon
        rw [Bool.eq_false_iff] at h
        exact h ((hasCS_cons2 a b l3).mpr (Or.inr hcon))
      have hrec : splitCS (b :: (l3 ++ ',' :: ' ' :: r)) =
          (b :: l3) :: splitCS r := by
        rw [← List.cons_append]
        exact ih htail
      have he : ((a :: b :: l3 : Str)) ++ ',' :: ' ' :: r =
          a :: b :: (l3 ++ ',' :: ' ' :: r) := by simp
      rw [he, splitCS, if_neg hpair, hrec]

theorem splitCS_ne_nil (l : Str) : splitCS l ≠ [] := by
  cases l with
  | nil => simp [splitCS]
  | cons a l2 =>
    cases l2 with
    | nil => simp [splitCS]
    | cons b l3 =>
      rw [splitCS]
      split_ifs
      · simp
      · cases splitCS (b :: l3) <;> simp

theorem splitCS_joinCS {ps : List Str} (hne : ps ≠ [])
    (h : ∀ p ∈ ps, hasCS p = false) : splitCS (joinCS ps) = ps := by
  induction ps with
  | nil => cases hne rfl
  | cons p ps2 ih =>
    cases ps2 with
    | nil =>
      rw [joinCS, splitCS_no (h p (by simp))]
    | cons q ps3 =>
      rw [joinCS]
      have he : p ++ S (r", ") ++ joinCS (q :: ps3) =
          p ++ ',' :: ' ' :: joinCS (q :: ps3) := by
        rw [show S (r", ") = [',', ' '] from rfl]
        simp
      rw [he, splitCS_append _ (h p (by simp)),
        ih (List.cons_ne_nil q ps3) (fun x hx => h x (List.mem_cons_of_mem p hx))]
      intro hcon
      cases hcon

theorem parseCollection_mem_inv {s : Str} {p : Policy}
    (hp : p ∈ parseCollection s) : PolicyInv p := by
  unfold parseCollection at hp
  rw [List.mem_map] at hp
  obtain ⟨piece, _, rfl⟩ := hp
  exact parseCsp_inv piece

/--
Claim C5, counterexample: the input consisting of script-src with a
comma-terminated value and a tab-separated second value contains no
duplicate directive names, yet serializing its parse and parsing again
yields a different collection, because the re-serialized value followed by
a space recreates the comma-space multi-policy delimiter.
-/
theorem roundTrip_counterexample :
    noDupNames RT_COUNTER ∧
    parseCollection (serializeCollection (parseCollection RT_COUNTER)) ≠
      parseCollection RT_COUNTER := by
  constructor
  · unfold noDupNames
    decide
  · decide

/--
Claim C5, amended: for every input string without duplicate directive
names within one policy, and whose parsed directive names and values do
not end in a comma, serializing the parsed collection (each directive as
its name and values terminated by semicolon-space, policies joined by
comma-space) and parsing again yields the original collection.
-/
theorem roundTrip (s : Str) (hdup : noDupNames s)
    (hcomma : noTrailingComma (parseCollection s)) :
    parseCollection (serializeCollection (parseCollection s)) =
      parseCollection s := by
  have hinv : ∀ p ∈ parseCollection s, PolicyInv p :=
    fun p hp => parseCollection_mem_inv hp
  have hne : (parseCollection s).map convertToString ≠ [] := by
    unfold parseCollection
    intro hcon
    exact splitCS_ne_nil s (by simpa using hcon)
  have hCS : ∀ piece ∈ (parseCollection s).map convertToString,
      hasCS piece = false := by
    intro piece hp
    rw [List.mem_map] at hp
    obtain ⟨p, hpmem, rfl⟩ := hp
    exact hasCS_convertToString (hinv p hpmem).2 (fun e he => hcomma p hpmem e he)
  have hsplit := splitCS_joinCS hne hCS
  unfold serializeCollection
  show (splitCS (joinCS ((parseCollection s).map convertToString))).map parseCsp =
    parseCollection s
  rw [hsplit, List.map_map]
  conv =>
    rhs
    rw [← List.map_id (parseCollection s)]
  exact List.map_congr_left
    (fun p hp => by simpa using parseCsp_convertToString (hinv p hp))

/-- Witness for the amended claim C5 on a two-policy example header. -/
theorem roundTrip_witness :
    parseCollection (serializeCollection (parseCollection RT_EXAMPLE)) =
      parseCollection RT_EXAMPLE :=
  roundTrip RT_EXAMPLE (by unfold noDupNames; decide)
    (by unfold noTrailingComma; decide)

/-- Witness for claim C4 on a duplicated mixed-case img-src header. -/
theorem parser_first_wins_witness :
    jsLower (S (r"img-src")) = S (r"img-src") ∧
    (parseCsp (S (r"IMG-src a.com; img-SRC b.com; font-src f.com"))).find?
        (fun e => e.1 = S (r"img-src")) =
      (tokenPairs (S (r"IMG-src a.com; img-SRC b.com; font-src f.com"))).find?
        (fun e => e.1 = S (r"img-src")) :=
  ⟨(parser_first_wins (S (r"IMG-src a.com; img-SRC b.com; font-src f.com"))).1
      (S (r"img-src")) (by decide),
   (parser_first_wins (S (r"IMG-src a.com; img-SRC b.com; font-src f.com"))).2.2.2
      (S (r"img-src"))⟩

/-! ## Heap frame lemmas for EnforcedCsps.getEffectiveCsps -/

theorem readCsp_writeVal (s : Store) (a : Nat) (v : List Str) (i : Nat) :
    readCsp (writeVal s a v) i = readCsp s i := rfl

theorem readVal_writeCsp (s : Store) (a : Nat) (m : List (Str × Nat)) (i : Nat) :
    readVal (writeCsp s a m) i = readVal s i := rfl

theorem readVal_writeVal_ne (s : Store) {a i : Nat} (h : a ≠ i) (v : List Str) :
    readVal (writeVal s a v) i = readVal s i := by
  unfold readVal writeVal
  simp [List.getElem?_set_ne h]

theorem readCsp_writeCsp_ne (s : Store) {a i : Nat} (h : a ≠ i)
    (m : List (Str × Nat)) : readCsp (writeCsp s a m) i = readCsp s i := by
  unfold readCsp writeCsp
  simp [List.getElem?_set_ne h]

theorem readCsp_writeCsp_self {s : Store} {a : Nat} (h : a < s.csps.length)
    (m : List (Str × Nat)) : readCsp (writeCsp s a m) a = m := by
  unfold readCsp writeCsp
  simp [List.getElem?_set_self h]

theorem readCsp_allocVal (s : Store) (v : List Str) (i : Nat) :
    readCsp (allocVal s v).1 i = readCsp s i := rfl

theorem readVal_allocCsp (s : Store) (m : List (Str × Nat)) (i : Nat) :
    readVal (allocCsp s m).1 i = readVal s i := rfl

theorem readVal_allocVal_lt (s : Store) (v : List Str) {i : Nat}
    (h : i < s.vals.length) : readVal (allocVal s v).1 i = readVal s i := by
  unfold readVal allocVal
  simp [List.getElem?_append_left h]

theorem readCsp_allocCsp_lt (s : Store) (m : List (Str × Nat)) {i : Nat}
    (h : i < s.csps.length) : readCsp (allocCsp s m).1 i = readCsp s i := by
  unfold readCsp allocCsp
  simp [List.getElem?_append_left h]

theorem readCsp_allocCsp_new (s : Store) (m : List (Str × Nat)) :
    readCsp (allocCsp s m).1 (allocCsp s m).2 = m := by
  unfold readCsp allocCsp
  simp

theorem readVal_allocVal_new (s : Store) (v : List Str) :
    readVal (allocVal s v).1 (allocVal s v).2 = v := by
  unfold readVal allocVal
  simp

theorem readCsp_eq_of_csps_eq {s s2 : Store} (h : s2.csps = s.csps) (i : Nat) :
    readCsp s2 i = readCsp s i := by
  unfold readCsp
  rw [h]

theorem ub_refl (n0 m0 : Nat) {s : Store} (hn : n0 ≤ s.csps.length)
    (hm : m0 ≤ s.vals.length) : UntouchedBelow n0 m0 s s :=
  ⟨hn, hm, fun _ _ => rfl, fun _ _ => rfl⟩

theorem ub_writeVal {n0 m0 : Nat} {s0 s : Store} {a : Nat}
    (h : UntouchedBelow n0 m0 s0 s) (ha : m0 ≤ a) (v : List Str) :
    UntouchedBelow n0 m0 s0 (writeVal s a v) := by
  obtain ⟨h1, h2, h3, h4⟩ := h
  refine ⟨by simpa [writeVal] using h1, by simpa [writeVal] using h2, ?_, ?_⟩
  · intro i hi; rw [readCsp_writeVal]; exact h3 i hi
  · intro i hi
    rw [readVal_writeVal_ne s (by omega) v]
    exact h4 i hi

theorem ub_writeCsp {n0 m0 : Nat} {s0 s : Store} {a : Nat}
    (h : UntouchedBelow n0 m0 s0 s) (ha : n0 ≤ a) (m : List (Str × Nat)) :
    UntouchedBelow n0 m0 s0 (writeCsp s a m) := by
  obtain ⟨h1, h2, h3, h4⟩ := h
  refine ⟨by simpa [writeCsp] using h1, by simpa [writeCsp] using h2, ?_, ?_⟩
  · intro i hi
    rw [readCsp_writeCsp_ne s (by omega) m]
    exact h3 i hi
  · intro i hi; rw [readVal_writeCsp]; exact h4 i hi

theorem ub_allocVal {n0 m0 : Nat} {s0 s : Store}
    (h : UntouchedBelow n0 m0 s0 s) (v : List Str) :
    UntouchedBelow n0 m0 s0 (allocVal s v).1 := by
  obtain ⟨h1, h2, h3, h4⟩ := h
  refine ⟨by simpa [allocVal] using h1, by simp [allocVal]; omega, ?_, ?_⟩
  · intro i hi; rw [readCsp_allocVal]; exact h3 i hi
  · intro i hi
    rw [readVal_allocVal_lt s v (by omega)]
    exact h4 i hi

theorem ub_allocCsp {n0 m0 : Nat} {s0 s : Store}
    (h : UntouchedBelow n0 m0 s0 s) (m : List (Str × Nat)) :
    UntouchedBelow n0 m0 s0 (allocCsp s m).1 := by
  obtain ⟨h1, h2, h3, h4⟩ := h
  refine ⟨by simp [allocCsp]; omega, by simpa [allocCsp] using h2, ?_, ?_⟩
  · intro i hi
    rw [readCsp_allocCsp_lt s m (by omega)]
    exact h3 i hi
  · intro i hi; rw [readVal_allocCsp]; exact h4 i hi

theorem cloneHigh_writeVal {n0 m0 : Nat} {s : Store} {b : Nat}
    (h : CloneHigh n0 m0 s b) (a : Nat) (v : List Str) :
    CloneHigh n0 m0 (writeVal s a v) b := by
  obtain ⟨h1, h2, h3⟩ := h
  exact ⟨h1, by simpa [writeVal] using h2, by rw [readCsp_writeVal]; exact h3⟩

theorem cloneHigh_allocVal {n0 m0 : Nat} {s : Store} {b : Nat}
    (h : CloneHigh n0 m0 s b) (v : List Str) :
    CloneHigh n0 m0 (allocVal s v).1 b := by
  obtain ⟨h1, h2, h3⟩ := h
  exact ⟨h1, by simpa [allocVal] using h2, by rw [readCsp_allocVal]; exact h3⟩

theorem cloneHigh_allocCsp {n0 m0 : Nat} {s : Store} {b : Nat}
    (h : CloneHigh n0 m0 s b) (m : List (Str × Nat)) :
    CloneHigh n0 m0 (allocCsp s m).1 b := by
  obtain ⟨h1, h2, h3⟩ := h
  refine ⟨h1, by simp [allocCsp]; omega, ?_⟩
  rw [readCsp_allocCsp_lt s m h2]
  exact h3

theorem cloneHigh_writeCsp_subset {n0 m0 : Nat} {s : Store} {b a : Nat}
    (h : CloneHigh n0 m0 s b) {m : List (Str × Nat)}
    (hm : ∀ e ∈ m, e ∈ readCsp s a) : CloneHigh n0 m0 (writeCsp s a m) b := by
  obtain ⟨h1, h2, h3⟩ := h
  refine ⟨h1, by simpa [writeCsp] using h2, ?_⟩
  by_cases hab : a = b
  · subst hab
    intro e he
    rw [readCsp_writeCsp_self h2 m] at he
    exact h3 e (hm e he)
  · intro e he
    rw [readCsp_writeCsp_ne s hab m] at he
    exact h3 e he

theorem cloneVals_fold_spec {n0 m0 : Nat} {s0 : Store}
    (entries : List (Str × Nat)) :
    ∀ st : Store × List (Str × Nat),
      UntouchedBelow n0 m0 s0 st.1 → (∀ e ∈ st.2, m0 ≤ e.2) →
      UntouchedBelow n0 m0 s0
          (entries.foldl
            (fun (st : Store × List (Str × Nat)) e =>
              let al := allocVal st.1 (readVal st.1 e.2)
              (al.1, st.2 ++ [(e.1, al.2)])) st).1 ∧
        (∀ e ∈ (entries.foldl
            (fun (st : Store × List (Str × Nat)) e =>
              let al := allocVal st.1 (readVal st.1 e.2)
              (al.1, st.2 ++ [(e.1, al.2)])) st).2, m0 ≤ e.2) ∧
        (entries.foldl
            (fun (st : Store × List (Str × Nat)) e =>
              let al := allocVal st.1 (readVal st.1 e.2)
              (al.1, st.2 ++ [(e.1, al.2)])) st).1.csps = st.1.csps := by
  induction entries with
  | nil => intro st hub hsnd; exact ⟨hub, hsnd, rfl⟩
  | cons e es ih =>
    intro st hub hsnd
    have hub2 : UntouchedBelow n0 m0 s0 (allocVal st.1 (readVal st.1 e.2)).1 :=
      ub_allocVal hub _
    have hsnd2 : ∀ x ∈ st.2 ++ [(e.1, (allocVal st.1 (readVal st.1 e.2)).2)],
        m0 ≤ x.2 := by
      intro x hx
      rcases List.mem_append.mp hx with hx | hx
      · exact hsnd x hx
      · have hxe : x = (e.1, (allocVal st.1 (readVal st.1 e.2)).2) := by
          simpa using hx
        rw [hxe]
        exact hub.2.1
    exact ih ((allocVal st.1 (readVal st.1 e.2)).1,
      st.2 ++ [(e.1, (allocVal st.1 (readVal st.1 e.2)).2)]) hub2 hsnd2

theorem cloneVals_spec {n0 m0 : Nat} {s0 s : Store} (a : Nat)
    (hub : UntouchedBelow n0 m0 s0 s) :
    UntouchedBelow n0 m0 s0 (cloneVals s a).1 ∧
      (∀ e ∈ (cloneVals s a).2, m0 ≤ e.2) ∧
      (cloneVals s a).1.csps = s.csps :=
  cloneVals_fold_spec (readCsp s a) (s, []) hub
    (fun e he => absurd he (List.not_mem_nil e))

theorem cloneCspH_spec {n0 m0 : Nat} {s0 s : Store} (a : Nat)
    (hub : UntouchedBelow n0 m0 s0 s) :
    UntouchedBelow n0 m0 s0 (cloneCspH s a).1 ∧
      CloneHigh n0 m0 (cloneCspH s a).1 (cloneCspH s a).2 ∧
      s.csps.length ≤ (cloneCspH s a).1.csps.length ∧
      (∀ b, CloneHigh n0 m0 s b → CloneHigh n0 m0 (cloneCspH s a).1 b) := by
  obtain ⟨hubf, hsndf, hcspsf⟩ := cloneVals_spec a hub
  have hlen : (cloneVals s a).1.csps.length = s.csps.length :=
    congrArg List.length hcspsf
  refine ⟨ub_allocCsp hubf _, ⟨?_, ?_, ?_⟩, ?_, ?_⟩
  · show n0 ≤ (cloneVals s a).1.csps.length
    rw [hlen]
    exact hub.1
  · show (cloneVals s a).1.csps.length <
      ((cloneVals s a).1.csps ++ [(cloneVals s a).2]).length
    simp
  · show ∀ e ∈ readCsp (allocCsp (cloneVals s a).1 (cloneVals s a).2).1
      (allocCsp (cloneVals s a).1 (cloneVals s a).2).2, m0 ≤ e.2
    rw [readCsp_allocCsp_new]
    exact hsndf
  · show s.csps.length ≤ ((cloneVals s a).1.csps ++ [(cloneVals s a).2]).length
    simp [hlen]
  · intro b hb
    have hb1 : CloneHigh n0 m0 (cloneVals s a).1 b := by
      obtain ⟨h1, h2, h3⟩ := hb
      refine ⟨h1, by rw [hlen]; exact h2, ?_⟩
      have hr : readCsp (cloneVals s a).1 b = readCsp s b :=
        readCsp_eq_of_csps_eq hcspsf b
      rw [hr]
      exact h3
    exact cloneHigh_allocCsp hb1 _

theorem cloneColH_fold_spec {n0 m0 : Nat} {s0 : Store} (col : List Nat) :
    ∀ st : Store × List Nat,
      UntouchedBelow n0 m0 s0 st.1 →
      (∀ b ∈ st.2, CloneHigh n0 m0 st.1 b) →
      UntouchedBelow n0 m0 s0
          (col.foldl
            (fun (st : Store × List Nat) a =>
              let cl := cloneCspH st.1 a
              (cl.1, st.2 ++ [cl.2])) st).1 ∧
        ∀ b ∈ (col.foldl
            (fun (st : Store × List Nat) a =>
              let cl := cloneCspH st.1 a
              (cl.1, st.2 ++ [cl.2])) st).2,
          CloneHigh n0 m0 (col.foldl
            (fun (st : Store × List Nat) a =>
              let cl := cloneCspH st.1 a
              (cl.1, st.2 ++ [cl.2])) st).1 b := by
  induction col with
  | nil => intro st hub hch; exact ⟨hub, hch⟩
  | cons a as ih =>
    intro st hub hch
    obtain ⟨hub2, hchNew, _, hchKeep⟩ := cloneCspH_spec a hub
    have hch2 : ∀ b ∈ st.2 ++ [(cloneCspH st.1 a).2],
        CloneHigh n0 m0 (cloneCspH st.1 a).1 b := by
      intro b hb
      rcases List.mem_append.mp hb with hb | hb
      · exact hchKeep b (hch b hb)
      · have hbe : b = (cloneCspH st.1 a).2 := by simpa using hb
        rw [hbe]
        exact hchNew
    exact ih ((cloneCspH st.1 a).1, st.2 ++ [(cloneCspH st.1 a).2]) hub2 hch2

theorem cloneColH_spec {n0 m0 : Nat} {s : Store} (col : List Nat)
    (hn : n0 ≤ s.csps.length) (hm : m0 ≤ s.vals.length) :
    UntouchedBelow n0 m0 s (cloneColH s col).1 ∧
      ∀ b ∈ (cloneColH s col).2, CloneHigh n0 m0 (cloneColH s col).1 b :=
  cloneColH_fold_spec col (s, []) (ub_refl n0 m0 hn hm)
    (fun b hb => absurd hb (List.not_mem_nil b))

theorem effVals_fold1_spec {n0 m0 : Nat} {s0 : Store} (values : List Str)
    (effAddr : Nat) (hm : m0 ≤ effAddr) :
    ∀ s : Store, UntouchedBelow n0 m0 s0 s →
      UntouchedBelow n0 m0 s0
          (values.foldl
            (fun acc v =>
              if nonceOrShaPrefix v then
                writeVal acc effAddr ((readVal acc effAddr).erase v)
              else acc) s) ∧
        (values.foldl
            (fun acc v =>
              if nonceOrShaPrefix v then
                writeVal acc effAddr ((readVal acc effAddr).erase v)
              else acc) s).csps = s.csps := by
  induction values with
  | nil => intro s hub; exact ⟨hub, rfl⟩
  | cons v vs ih =>
    intro s hub
    simp only [List.foldl_cons]
    by_cases hv : nonceOrShaPrefix v
    · rw [if_pos hv]
      exact ih (writeVal s effAddr ((readVal s effAddr).erase v))
        (ub_writeVal hub hm _)
    · rw [if_neg hv]
      exact ih s hub

theorem effVals_fold2_spec {n0 m0 : Nat} {s0 : Store} (values : List Str)
    (effAddr : Nat) (hm : m0 ≤ effAddr) (d : Str) :
    ∀ st : Store × List Finding, UntouchedBelow n0 m0 s0 st.1 →
      UntouchedBelow n0 m0 s0
          (values.foldl
            (fun acc v =>
              if ¬ (v.head? = some SQ) ∨ v = KW_SELF ∨ v = KW_UNSAFE_INLINE then
                (writeVal acc.1 effAddr ((readVal acc.1 effAddr).erase v),
                 acc.2 ++ [{ type := .ignored, description := DESC_SD_IGNORED,
                             severity := .noneSev, directive := d,
                             value := some v }])
              else acc) st).1 ∧
        (values.foldl
            (fun acc v =>
              if ¬ (v.head? = some SQ) ∨ v = KW_SELF ∨ v = KW_UNSAFE_INLINE then
                (writeVal acc.1 effAddr ((readVal acc.1 effAddr).erase v),
                 acc.2 ++ [{ type := .ignored, description := DESC_SD_IGNORED,
                             severity := .noneSev, directive := d,
                             value := some v }])
              else acc) st).1.csps = st.1.csps := by
  induction values with
  | nil => intro st hub; exact ⟨hub, rfl⟩
  | cons v vs ih =>
    intro st hub
    simp only [List.foldl_cons]
    by_cases hv : ¬ (v.head? = some SQ) ∨ v = KW_SELF ∨ v = KW_UNSAFE_INLINE
    · rw [if_pos hv]
      exact ih (writeVal st.1 effAddr ((readVal st.1 effAddr).erase v),
        st.2 ++ [{ type := .ignored, description := DESC_SD_IGNORED,
                   severity := .noneSev, directive := d, value := some v }])
        (ub_writeVal hub hm _)
    · rw [if_neg hv]
      exact ih st hub

theorem effRule1_spec {n0 m0 : Nat} {s0 : Store} (d : Str) (ver : Nat)
    (values : List Str) (st : Store × List Finding) (aC effAddr : Nat)
    (hub : UntouchedBelow n0 m0 s0 st.1) (hm : m0 ≤ effAddr) :
    UntouchedBelow n0 m0 s0 (effRule1 d ver values st aC effAddr).1 ∧
      (effRule1 d ver values st aC effAddr).1.csps = st.1.csps := by
  unfold effRule1
  split_ifs with h1 h2 h3
  · exact ⟨ub_writeVal hub hm _, rfl⟩
  · exact ⟨hub, rfl⟩
  · exact effVals_fold1_spec values effAddr hm st.1 hub
  · exact ⟨hub, rfl⟩

theorem effRule2_spec {n0 m0 : Nat} {s0 : Store} (d : Str) (ver : Nat)
    (values : List Str) (st1 : Store × List Finding) (aO effAddr : Nat)
    (hub : UntouchedBelow n0 m0 s0 st1.1) (hm : m0 ≤ effAddr) :
    UntouchedBelow n0 m0 s0 (effRule2 d ver values st1 aO effAddr).1 ∧
      (effRule2 d ver values st1 aO effAddr).1.csps = st1.1.csps := by
  unfold effRule2
  split_ifs with h1 h2
  · exact effVals_fold2_spec values effAddr hm d st1 hub
  · exact ⟨ub_writeVal hub hm _, rfl⟩
  · exact ⟨hub, rfl⟩

theorem effRule3_spec {n0 m0 : Nat} {s0 : Store} (ver : Nat)
    (st2 : Store × List Finding) (aC : Nat)
    (hub : UntouchedBelow n0 m0 s0 st2.1) (hn : n0 ≤ aC) :
    UntouchedBelow n0 m0 s0 (effRule3 ver st2 aC).1 ∧
      ∀ b, CloneHigh n0 m0 st2.1 b →
        CloneHigh n0 m0 (effRule3 ver st2 aC).1 b := by
  unfold effRule3
  split_ifs with h1
  · refine ⟨ub_writeCsp hub hn _, ?_⟩
    intro b hb
    exact cloneHigh_writeCsp_subset hb (fun e he => List.mem_of_mem_filter he)
  · exact ⟨hub, fun b hb => hb⟩

theorem effStepH_spec {n0 m0 : Nat} {s0 : Store} (d : Str) (ver : Nat)
    (st : Store × List Finding) (aO aC : Nat)
    (hub : UntouchedBelow n0 m0 s0 st.1) (hch : CloneHigh n0 m0 st.1 aC) :
    UntouchedBelow n0 m0 s0 (effStepH d ver st aO aC).1 ∧
      ∀ b, CloneHigh n0 m0 st.1 b →
        CloneHigh n0 m0 (effStepH d ver st aO aC).1 b := by
  unfold effStepH
  cases hA : dirAddr st.1 aC d with
  | none =>
    simp only [hA]
    exact effRule3_spec ver st aC hub hch.1
  | some effAddr =>
    simp only [hA]
    have hm : m0 ≤ effAddr := by
      unfold dirAddr at hA
      cases hfind : (readCsp st.1 aC).find? (fun e => e.1 = d) with
      | none => rw [hfind] at hA; cases hA
      | some e =>
        simp only [hfind] at hA
        have he : e ∈ readCsp st.1 aC := List.mem_of_find?_eq_some hfind
        have he2 : e.2 = effAddr := Option.some.inj hA
        rw [← he2]
        exact hch.2.2 e he
    have h1 := effRule1_spec d ver (lookupD (matCsp st.1 aO) d) st
      aC effAddr hub hm
    have h2 := effRule2_spec d ver (lookupD (matCsp st.1 aO) d)
      (effRule1 d ver (lookupD (matCsp st.1 aO) d) st aC effAddr) aO effAddr
      h1.1 hm
    have hcsps : (effRule2 d ver (lookupD (matCsp st.1 aO) d)
        (effRule1 d ver (lookupD (matCsp st.1 aO) d) st aC effAddr)
        aO effAddr).1.csps = st.1.csps := h2.2.trans h1.2
    have h3 := effRule3_spec ver
      (effRule2 d ver (lookupD (matCsp st.1 aO) d)
        (effRule1 d ver (lookupD (matCsp st.1 aO) d) st aC effAddr)
        aO effAddr) aC h2.1 hch.1
    refine ⟨h3.1, ?_⟩
    intro b hb
    refine h3.2 b ?_
    obtain ⟨hb1, hb2, hb3⟩ := hb
    refine ⟨hb1, ?_, ?_⟩
    · rw [congrArg List.length hcsps]
      exact hb2
    · rw [readCsp_eq_of_csps_eq hcsps b]
      exact hb3

theorem effFold_spec {n0 m0 : Nat} {s0 : Store} (d : Str) (ver : Nat)
    (prs : List (Nat × Nat)) :
    ∀ st : Store × List Finding,
      UntouchedBelow n0 m0 s0 st.1 →
      (∀ pr ∈ prs, CloneHigh n0 m0 st.1 pr.2) →
      UntouchedBelow n0 m0 s0
          (prs.foldl
            (fun (st : Store × List Finding) pr => effStepH d ver st pr.1 pr.2)
            st).1 ∧
        ∀ b, CloneHigh n0 m0 st.1 b →
          CloneHigh n0 m0 (prs.foldl
            (fun (st : Store × List Finding) pr => effStepH d ver st pr.1 pr.2)
            st).1 b := by
  induction prs with
  | nil => intro st hub hch; exact ⟨hub, fun b hb => hb⟩
  | cons pr prs ih =>
    intro st hub hch
    have hstep := effStepH_spec d ver st pr.1 pr.2 hub
      (hch pr (by simp))
    have hch2 : ∀ q ∈ prs, CloneHigh n0 m0 (effStepH d ver st pr.1 pr.2).1 q.2 :=
      fun q hq => hstep.2 q.2 (hch q (by simp [hq]))
    have hrest := ih (effStepH d ver st pr.1 pr.2) hstep.1 hch2
    simp only [List.foldl_cons]
    exact ⟨hrest.1, fun b hb => hrest.2 b (hstep.2 b hb)⟩

/--
Claim C6: for every heap, every collection of policy addresses valid in
it and every CSP version, EnforcedCsps.getEffectiveCsps leaves the input
collection unchanged — every policy object of the collection reads back
its exact directive map, and every value cell it references reads back
its exact value list; all removals act only on the returned clone.
-/
theorem getEffectiveCsps_no_mutation (s : Store) (col : List Nat) (v : Nat)
    (hval : validCol s col) :
    ∀ a ∈ col, readCsp (getEffectiveCspsH s col v).1 a = readCsp s a ∧
      ∀ e ∈ readCsp s a,
        readVal (getEffectiveCspsH s col v).1 e.2 = readVal s e.2 := by
  obtain ⟨hubCl, hchCl⟩ :=
    @cloneColH_spec s.csps.length s.vals.length s col
      (Nat.le_refl _) (Nat.le_refl _)
  have hch : ∀ pr ∈ col.zip (cloneColH s col).2,
      CloneHigh s.csps.length s.vals.length (cloneColH s col).1 pr.2 :=
    fun pr hpr => hchCl pr.2 (List.of_mem_zip hpr).2
  have hrun := @effFold_spec s.csps.length s.vals.length s
    (colGetEffectiveDirective (cloneColH s col).1 (cloneColH s col).2 SCRIPT_SRC)
    v (col.zip (cloneColH s col).2) ((cloneColH s col).1, []) hubCl hch
  intro a ha
  obtain ⟨haLt, hvalsLt⟩ := hval a ha
  exact ⟨hrun.1.2.2.1 a haLt,
    fun e he => hrun.1.2.2.2 e.2 (hvalsLt e he)⟩

/--
Witness for claim C6 on a concrete one-policy heap at CSP version 1: the
collection is valid and the original cells read back unchanged.
-/
theorem getEffectiveCsps_no_mutation_witness :
    validCol FW_STORE [0] ∧
      ∀ a ∈ [0], readCsp (getEffectiveCspsH FW_STORE [0] 1).1 a =
          readCsp FW_STORE a ∧
        ∀ e ∈ readCsp FW_STORE a,
          readVal (getEffectiveCspsH FW_STORE [0] 1).1 e.2 =
            readVal FW_STORE e.2 :=
  ⟨by unfold validCol; decide,
   getEffectiveCsps_no_mutation FW_STORE [0] 1 (by unfold validCol; decide)⟩

end CspEval
